import Mathlib

/-! Wave creation and staged TUF root updates of fioctl.

A shallow embedding of `subcommands/waves/init.go` and
`subcommands/keys/tuf_updates_apply.go`.

Conventions of the embedding:

* a Go `map[string]T` is an association list `GoMap T`; reading, writing and deleting a key
  are `GoMap.get`, `GoMap.set` and `GoMap.delete`.  The order in which a `range` loop visits
  a map is not fixed by Go: it is the order of the list, and every theorem quantifies over
  all lists, hence over all visiting orders.  A map that a loop ranges over holds each key
  once; the theorems on such loops carry that as the hypothesis `(GoMap.keys m).Nodup`;
* a function that returns a Go `error` returns `Except GoError _`; where the code at hand
  can panic on the way (`replaceTags`) the function returns `Except Fault _`, a `Fault`
  being either the returned error or the panic;
* `subcommands.DieNotNil` ends the process, so a command is a function into
  `Except Exit _`;
* the REST client (`api`), the `keys` package and the clock are collaborators of the
  commands; they are passed as records of functions.
-/

namespace Fioctl

set_option maxRecDepth 8192

/-! ## Go values -/

/-- A Go `error` value: a plain error (`errors.New`, `fmt.Errorf`) or the client's
`HttpError`, which carries the status code of the response. -/
inductive GoError where
  | plain (text : String)
  | http (text : String) (StatusCode : Int)
  deriving DecidableEq, Repr

/-- The text of an error (`err.Error()`). -/
def GoError.Error : GoError → String
  | .plain text => text
  | .http text _ => text

/-- What stops `replaceTags` short of its result: an error it returns, or a run-time panic
on the way. -/
inductive Fault where
  | err (e : GoError)
  | panic (text : String)
  deriving DecidableEq, Repr

/-- How a command ends early: `subcommands.DieNotNil(err, message...)` prints the message
parts and the error and exits with status 1, or a run-time panic aborts the process. -/
inductive Exit where
  | die (err : GoError) (message : List String)
  | panic (text : String)
  deriving DecidableEq, Repr

/-- The call `subcommands.DieNotNil(err, message...)` applied to the outcome of a call that
returns an error: a nil error lets the command go on, an error ends it. -/
def DieNotNil {α : Type} (r : Except GoError α) (message : List String) : Except Exit α :=
  match r with
  | .ok a => .ok a
  | .error e => .error (.die e message)

/-! ## Go maps -/

/-- A Go `map[string]β` as an association list; the first entry of a key is its value. -/
abbrev GoMap (β : Type) := List (String × β)

namespace GoMap

variable {β : Type}

/-- The read `m[k]` with its presence flag. -/
def get : GoMap β → String → Option β
  | [], _ => none
  | (k, v) :: rest, key => if k = key then some v else get rest key

/-- The write `m[key] = v`. -/
def set : GoMap β → String → β → GoMap β
  | [], key, v => [(key, v)]
  | (k, w) :: rest, key, v => if k = key then (k, v) :: rest else (k, w) :: set rest key v

/-- The builtin `delete(m, key)`. -/
def delete : GoMap β → String → GoMap β
  | [], _ => []
  | (k, w) :: rest, key => if k = key then delete rest key else (k, w) :: delete rest key

/-- The keys of the map, in the order of the entries. -/
def keys (m : GoMap β) : List String := m.map Prod.fst

end GoMap

/-! ## JSON documents -/

/-- A JSON document.  A number is its decimal literal, the integer `mantissa` times the
power `exponent` of ten (`1.5` is `num 15 (-1)`, `16` is `num 16 0`); the members of an
object are kept in the order of the text. -/
inductive Json where
  | null
  | bool (b : Bool)
  | num (mantissa : Int) (exponent : Int)
  | str (s : String)
  | arr (items : List Json)
  | obj (members : List (String × Json))

/-- The value a decoder reads for key `k` of an object: when the text repeats a key the
last occurrence wins; a document that is not an object has no members. -/
def Json.member : Json → String → Option Json
  | .obj members, k => GoMap.get members.reverse k
  | _, _ => none

/-- A Go value as `json.Unmarshal` stores it in an `interface{}`: nil, a bool, a float64
(the integer `mantissa` times the power `exponent` of two), a string, a slice or a map. -/
inductive Value where
  | null
  | bool (b : Bool)
  | float (mantissa : Int) (exponent : Int)
  | string (s : String)
  | slice (items : List Value)
  | map (entries : List (String × Value))

/-- The number of binary digits of `n`; the fuel `n` is more than it takes. -/
def bitLen : Nat → Nat → Nat
  | 0, _ => 0
  | fuel + 1, n => if n = 0 then 0 else bitLen fuel (n / 2) + 1

/-- The float64 nearest to the rational `a / b` (with `b` positive), a tie going to the even
mantissa: the mantissa `m` and the exponent `u` of `m * 2 ^ u`, with `m` at most `2 ^ 53`
and `u` from -1074 on, or `none` when the nearest value is beyond the largest float64. -/
def nearest64 (a b : Nat) : Option (Nat × Int) :=
  if a = 0 then some (0, 0)
  else
    let e0 : Int := (bitLen a a : Int) - (bitLen b b : Int)
    let atLeast : Bool :=
      if 0 ≤ e0 then decide (b * 2 ^ e0.toNat ≤ a) else decide (b ≤ a * 2 ^ (-e0).toNat)
    let e : Int := if atLeast then e0 else e0 - 1
    let u : Int := max (e - 52) (-1074)
    let num : Nat := if 0 ≤ u then a else a * 2 ^ (-u).toNat
    let den : Nat := if 0 ≤ u then b * 2 ^ u.toNat else b
    let q := num / den
    let r := num % den
    let m :=
      if 2 * r < den then q
      else if den < 2 * r then q + 1
      else if q % 2 = 0 then q
      else q + 1
    if 1024 < (bitLen m m : Int) + u then none else some (m, u)

/-- The call `strconv.ParseFloat(s, 64)` on a number literal, as the decoder makes it:
the nearest float64, or `none` for a literal out of the range of float64. -/
def ParseFloat (mantissa exponent : Int) : Option (Int × Int) :=
  let a : Nat := if 0 ≤ exponent then mantissa.natAbs * 10 ^ exponent.toNat else mantissa.natAbs
  let b : Nat := if 0 ≤ exponent then 1 else 10 ^ (-exponent).toNat
  match nearest64 a b with
  | none => none
  | some (m, u) => some (if mantissa < 0 then - (m : Int) else (m : Int), u)

mutual
/-- The decoding of a JSON document into an `interface{}`: a number becomes a float64 (a
literal out of range is an `UnmarshalTypeError`, whose text names the literal between
`number` and `into`; the embedding leaves the literal out), an array a slice, an object a
map filled key after key.  The first error is the one returned. -/
def decodeValue : Json → Except GoError Value
  | .null => .ok .null
  | .bool b => .ok (.bool b)
  | .num mantissa exponent =>
    match ParseFloat mantissa exponent with
    | some (m, u) => .ok (.float m u)
    | none => .error (.plain "json: cannot unmarshal number into Go value of type float64")
  | .str s => .ok (.string s)
  | .arr items =>
    match decodeItems items with
    | .ok values => .ok (.slice values)
    | .error err => .error err
  | .obj members =>
    match decodeMembers members with
    | .ok entries => .ok (.map (entries.foldl (fun m kv => GoMap.set m kv.1 kv.2) []))
    | .error err => .error err
/-- The decoding of the items of an array. -/
def decodeItems : List Json → Except GoError (List Value)
  | [] => .ok []
  | item :: rest =>
    match decodeValue item, decodeItems rest with
    | .ok value, .ok values => .ok (value :: values)
    | .error err, _ => .error err
    | _, .error err => .error err
/-- The decoding of the members of an object, in the order of the text. -/
def decodeMembers : List (String × Json) → Except GoError (List (String × Value))
  | [] => .ok []
  | (key, item) :: rest =>
    match decodeValue item, decodeMembers rest with
    | .ok value, .ok values => .ok ((key, value) :: values)
    | .error err, _ => .error err
    | _, .error err => .error err
end

/-- The conversion `int64(f)` of a float64 that is the integer `k`.  Outside the range of
int64 Go leaves the result to the implementation; the value here is the one of amd64. -/
def toInt64 (k : Int) : Int :=
  if -2 ^ 63 ≤ k ∧ k < 2 ^ 63 then k else -2 ^ 63

/-- The order `a < b` of two Go strings, byte by byte; the characters here are code points,
whose order is the order of their UTF-8 bytes. -/
def lessBytes : List Char → List Char → Bool
  | [], [] => false
  | [], _ :: _ => true
  | _ :: _, [] => false
  | a :: as, b :: bs =>
    if a.toNat < b.toNat then true
    else if b.toNat < a.toNat then false
    else lessBytes as bs

/-- The entries of a map in the order the encoder writes them: sorted by key. -/
def sortKeys {β : Type} (m : GoMap β) : GoMap β :=
  m.insertionSort (fun a b => lessBytes b.1.toList a.1.toList = false)

mutual
/-- The canonical encoding of a Go value: a float64 that is not an integer is refused
(`UnsupportedValueError`, whose text goes on with the digits of the value; the embedding
leaves them out), one that is an integer is written as the decimal of `int64(f)`; the
entries of a map become the members of an object, sorted by key. -/
def encodeValue : Value → Except GoError Json
  | .null => .ok .null
  | .bool b => .ok (.bool b)
  | .float m u =>
    if 0 ≤ u then .ok (.num (toInt64 (m * 2 ^ u.toNat)) 0)
    else if m % 2 ^ (-u).toNat = 0 then .ok (.num (toInt64 (m / 2 ^ (-u).toNat)) 0)
    else .error (.plain "json: unsupported value")
  | .string s => .ok (.str s)
  | .slice items =>
    match encodeItems items with
    | .ok values => .ok (.arr values)
    | .error err => .error err
  | .map entries =>
    match encodeMembers entries with
    | .ok members => .ok (.obj (sortKeys members))
    | .error err => .error err
/-- The encoding of the items of a slice. -/
def encodeItems : List Value → Except GoError (List Json)
  | [] => .ok []
  | item :: rest =>
    match encodeValue item, encodeItems rest with
    | .ok value, .ok values => .ok (value :: values)
    | .error err, _ => .error err
    | _, .error err => .error err
/-- The encoding of the entries of a map. -/
def encodeMembers : List (String × Value) → Except GoError (List (String × Json))
  | [] => .ok []
  | (key, item) :: rest =>
    match encodeValue item, encodeMembers rest with
    | .ok value, .ok values => .ok ((key, value) :: values)
    | .error err, _ => .error err
    | _, .error err => .error err
end

/-- The text of the `UnmarshalTypeError` for a document of the given kind that is decoded
into a `map[string]interface{}`. -/
def errNotAMap (kind : String) : GoError :=
  .plain ("json: cannot unmarshal " ++ kind
    ++ " into Go value of type map[string]interface \x7b\x7d")

/-- The call `json.Unmarshal(data, &custom)` into a nil `map[string]interface{}`: an object
fills a fresh map, key after key, with the decoded values; `null` leaves the map nil
(`none`) and is no error; any other document is a type error. -/
def unmarshalMap : Json → Except GoError (Option (GoMap Value))
  | .obj members =>
    match decodeMembers members with
    | .ok entries => .ok (some (entries.foldl (fun m kv => m.set kv.1 kv.2) []))
    | .error err => .error err
  | .null => .ok none
  | .bool _ => .error (errNotAMap "bool")
  | .num _ _ => .error (errNotAMap "number")
  | .str _ => .error (errNotAMap "string")
  | .arr _ => .error (errNotAMap "array")

/-- The call `json.MarshalCanonical(custom)` of a map, read back by `UnmarshalJSON`: the
object whose members are the encoded entries of the map, sorted by key, or the error of the
encoder. -/
def MarshalCanonical (custom : GoMap Value) : Except GoError Json :=
  match encodeMembers custom with
  | .ok members => .ok (.obj (sortKeys members))
  | .error err => .error err

/-- The type `tuf.FileMeta`: length, hashes and the raw custom document, a pointer that may
be nil.  A raw document came out of a JSON decoder, which checked it, so it is held as the
JSON document it spells. -/
structure FileMeta where
  Length : Int
  Hashes : GoMap String
  Custom : Option Json

/-- The type `tuf.Files`: Target name to file. -/
abbrev Files := GoMap FileMeta

/-- The function `replaceTags` of `waves/init.go`.  It decodes the custom document into a
map, stores the one-element list of the tag under "tags" and writes the canonical form
back into the Target; an error of the decoder or of the encoder is returned.
Dereferencing a nil custom pointer and assigning into the nil map left by a `null`
document are run-time panics. -/
def replaceTags (target : FileMeta) (tag : String) : Except Fault FileMeta :=
  match target.Custom with
  | none => .error (.panic "invalid memory address or nil pointer dereference")
  | some raw =>
    match unmarshalMap raw with
    | .error e => .error (.err e)
    | .ok none => .error (.panic "assignment to entry in nil map")
    | .ok (some custom) =>
      let custom := custom.set "tags" (.slice [.string tag])
      match MarshalCanonical custom with
      | .error e => .error (.err e)
      | .ok data => .ok { target with Custom := some data }

/-! ## Metadata -/

/-- The type `client.AtsTargetsMeta`: the common header of a signed role (type, expiration,
version) and the Targets.  An instant is a count of nanoseconds since
1970-01-01T00:00:00Z. -/
structure AtsTargetsMeta where
  Type_ : String
  Expires : Int
  Version : Int
  Targets : Files

/-- The type `tuf.Signature`. -/
structure TufSignature where
  KeyID : String
  Method : String
  Signature : String
  deriving DecidableEq, Repr

/-- The type `client.AtsTufTargets`: a signed Targets document as the server returns it. -/
structure AtsTufTargets where
  Signatures : List TufSignature
  Signed : AtsTargetsMeta

/-- The type `tuf.Signed`.  The raw `Signed` message holds the canonical bytes of a Targets
document; the embedding keeps the document they encode. -/
structure TufSigned where
  Signatures : List TufSignature
  Signed : AtsTargetsMeta

/-- The type `client.WaveCreate`: the payload that creates a Wave. -/
structure WaveCreate where
  Name : String
  Version : String
  Tag : String
  Targets : TufSigned

/-- The type `client.TufCustom`, with the fields the Wave commands read. -/
structure TufCustom where
  Tags : List String
  Version : String
  deriving DecidableEq, Repr

/-- The key value of `client.AtsKey`. -/
structure AtsKeyVal where
  Public : String
  deriving DecidableEq, Repr

/-- The type `client.AtsKey`. -/
structure AtsKey where
  KeyType : String
  KeyValue : AtsKeyVal
  deriving DecidableEq, Repr

/-- The type `tuf.RootRole`. -/
structure RootRole where
  KeyIDs : List String
  Threshold : Int
  deriving DecidableEq, Repr

/-- The type `client.AtsRootMeta`: the keys by ID and the roles by name.  A role is held by
pointer, so a missing role reads as nil; a missing key reads as the zero key. -/
structure AtsRootMeta where
  Keys : GoMap AtsKey
  Roles : GoMap RootRole

/-- The type `client.AtsTufRoot`. -/
structure AtsTufRoot where
  Signed : AtsRootMeta

/-- The type `client.TufRootUpdates`, with the field the apply command reads. -/
structure TufRootUpdates where
  Status : String
  deriving DecidableEq, Repr

/-- Modelled from the spec: the constant `client.TufRootUpdatesStatusNone` is declared in the
client package, outside the sources at hand; the spec names the status "none". -/
def TufRootUpdatesStatusNone : String := "none"

/-- The offline credentials archive: file name to content. -/
abbrev OfflineCreds := GoMap String

/-- A signer found in the offline credentials: the key ID and the private key. -/
structure TufSigner where
  Id : String
  Key : String
  deriving DecidableEq, Repr

/-! ## Collaborators -/

/-- The REST client `api` of the commands, one field per method they call. -/
structure Api where
  TargetsList : String → String → Except GoError Files
  ProdTargetsGet : String → String → Bool → Except GoError (Option AtsTufTargets)
  TargetCustom : FileMeta → Except GoError TufCustom
  TufRootGet : String → Except GoError AtsTufRoot
  TufTargetsOnlineKey : String → Except GoError AtsKey
  FactoryCreateWave : String → WaveCreate → Except GoError Unit
  TufRootUpdatesApply : String → String → Except GoError Unit
  TufRootUpdatesGet : String → Except GoError TufRootUpdates

/-- The functions of the `keys` package that the Wave command calls. -/
structure Keys where
  GetOfflineCreds : String → Except GoError OfflineCreds
  FindOneTufSigner : AtsTufRoot → OfflineCreds → List String → Except GoError TufSigner
  SignTufMeta : AtsTargetsMeta → TufSigner → Except GoError (List TufSignature)
  ErrMsgReadingTufKey : String → String → String

/-- The clock and the RFC 3339 reader of package `time`. -/
structure Clock where
  Now : Int
  Parse : String → Except GoError Int

/-- The flags of `wave init`; a flag that has a `Changed` test is `none` when not given. -/
structure Flags where
  expiresDays : Option Int
  expiresAt : Option String
  dryRun : Bool
  prune : List String
  keys : String
  sourceTag : String

/-- The type `client.HttpError`, with the status code of its response. -/
structure HttpError where
  Message : String
  StatusCode : Int
  deriving DecidableEq, Repr

/-- The client's `AsHttpError`: the HTTP error inside an error, if it is one. -/
def AsHttpError : GoError → Option HttpError
  | .plain _ => none
  | .http text code => some { Message := text, StatusCode := code }

/-! ## Signing (`signTargets`) -/

/-- The public value `root.Signed.Keys[kid].KeyValue.Public`; a key ID that the key map
does not hold reads as the zero key, whose public value is empty. -/
def publicOf (root : AtsTufRoot) (kid : String) : String :=
  match root.Signed.Keys.get kid with
  | some key => key.KeyValue.Public
  | none => ""

/-- Lines 209-217 of `signTargets`: the key IDs of the targets role that may sign offline.
The slice is made with capacity `len(targetsKids)-1`, which Go refuses with a run-time panic
when it is negative; then the loop appends every key ID whose public value differs from
the online key. -/
def signerKids (root : AtsTufRoot) (onlinePub : AtsKey) : Except Exit (List String) :=
  match root.Signed.Roles.get "targets" with
  | none => .error (.panic "invalid memory address or nil pointer dereference")
  | some role =>
    let targetsKids := role.KeyIDs
    if (targetsKids.length : Int) - 1 < 0 then
      .error (.panic "makeslice: cap out of range")
    else
      .ok (targetsKids.foldl
        (fun signerKids kid =>
          if publicOf root kid = onlinePub.KeyValue.Public then signerKids
          else signerKids ++ [kid])
        [])

/-- The error of `signTargets` for a root without offline Targets keys. -/
def errNotConfigured : GoError :=
  .plain "Root role is not configured to sign Targets offline.\nPlease, run \"fioctl keys tuf rotate-offline-key --role=targets\" in order to create offline Targets keys."

/-- The function `signTargets` of `waves/init.go`. -/
def signTargets (api : Api) (keys : Keys) (meta : AtsTargetsMeta) (factory : String)
    (offlineKeys : OfflineCreds) : Except Exit (List TufSignature) := do
  let root ← DieNotNil (api.TufRootGet factory) ["Failed to fetch root role"]
  let onlinePub ← DieNotNil (api.TufTargetsOnlineKey factory)
    ["Failed to fetch online Targets public key"]
  let signerKids ← signerKids root onlinePub
  if signerKids.length = 0 then
    throw (.die errNotConfigured [])
  else
    let signer ← DieNotNil (keys.FindOneTufSigner root offlineKeys signerKids)
      [keys.ErrMsgReadingTufKey "targets" "current"]
    let signatures ← DieNotNil (keys.SignTufMeta meta signer) ["Failed to sign new targets"]
    return signatures

/-! ## Pruning (`pruneTargets`) -/

/-- The inner loop of `pruneTargets` for one requested version: it visits the entries of the
map as they were when the loop began, decodes each custom document (a failure ends the
command), deletes the Targets of that version and records that one was found. -/
def pruneVersion (api : Api) (version : String) :
    List (String × FileMeta) → Files → Bool → Except Exit (Files × Bool)
  | [], targets, found => .ok (targets, found)
  | (name, file) :: rest, targets, found =>
    match DieNotNil (api.TargetCustom file) [] with
    | .error e => .error e
    | .ok custom =>
      if custom.Version = version then
        pruneVersion api version rest (targets.delete name) true
      else
        pruneVersion api version rest targets found

/-- The outer loop of `pruneTargets`: version after version, collecting in `missing` the
versions for which nothing was found. -/
def pruneLoop (api : Api) : List String → Files → List String → Except Exit (Files × List String)
  | [], targets, missing => .ok (targets, missing)
  | version :: rest, targets, missing =>
    match pruneVersion api version targets targets false with
    | .error e => .error e
    | .ok (targets, found) =>
      pruneLoop api rest targets (if found then missing else missing ++ [version])

/-- The function `pruneTargets` of `waves/init.go`. -/
def pruneTargets (api : Api) (currentTargets : AtsTargetsMeta) (versions : List String) :
    Except Exit AtsTargetsMeta :=
  match pruneLoop api versions currentTargets.Targets [] with
  | .error e => .error e
  | .ok (targets, missing) =>
    if missing.length > 0 then
      .error (.die (.plain "")
        ["Unable to prune the following versions: " ++ ",".intercalate missing])
    else
      .ok { currentTargets with Targets := targets }

/-! ## Expiration (`readExpiration`) -/

/-- A 64-bit signed integer after an arithmetic operation that may wrap. -/
def wrapInt64 (x : Int) : Int := (x + 2 ^ 63) % 2 ^ 64 - 2 ^ 63

/-- The constant `time.Second`, in nanoseconds. -/
def Second : Int := 1000000000

/-- The constant `time.Hour`, in nanoseconds. -/
def Hour : Int := 3600 * Second

/-- The method `Time.Round` of package `time`: the nearest multiple of `d` since the zero
instant, a halfway value going up; a non-positive `d` leaves the instant as it is. -/
def Round (t d : Int) : Int :=
  if d ≤ 0 then t
  else
    let r := t % d
    if r + r < d then t - r else t + (d - r)

/-- The function `readExpiration` of `waves/init.go`. -/
def readExpiration (clock : Clock) (flags : Flags) : Except Exit Int := do
  let expires ← match flags.expiresAt with
    | some value => DieNotNil (clock.Parse value) ["Invalid expires-at value:"]
    | none =>
      let days := match flags.expiresDays with
        | some d => d
        | none => 365
      pure (clock.Now + wrapInt64 (wrapInt64 (days * 24) * Hour))
  return Round expires Second

/-- The function `readOfflineKeys` of `waves/init.go`. -/
def readOfflineKeys (keys : Keys) (flags : Flags) : Except Exit OfflineCreds :=
  DieNotNil (keys.GetOfflineCreds flags.keys) ["Failed to open offline keys file"]

/-! ## The Wave command (`doInitWave`) -/

/-- The digits of a decimal numeral, most significant first; `none` at a character that is
not a digit. -/
def parseDigits : List Char → Nat → Option Nat
  | [], acc => some acc
  | c :: cs, acc => if c.isDigit then parseDigits cs (acc * 10 + (c.toNat - 48)) else none

/-- The call `strconv.ParseInt(s, 10, bitSize)`: an optional sign, then one or more decimal
digits, and a value that fits a signed integer of `bitSize` bits. -/
def ParseInt (s : String) (bitSize : Nat) : Except GoError Int :=
  match s.toList with
  | [] => .error (.plain ("strconv.ParseInt: parsing \"" ++ s ++ "\": invalid syntax"))
  | c :: cs =>
    let neg := c = '-'
    let digits := if c = '+' ∨ c = '-' then cs else c :: cs
    match digits, parseDigits digits 0 with
    | [], _ => .error (.plain ("strconv.ParseInt: parsing \"" ++ s ++ "\": invalid syntax"))
    | _, none => .error (.plain ("strconv.ParseInt: parsing \"" ++ s ++ "\": invalid syntax"))
    | _, some un =>
      let cutoff : Nat := 2 ^ (bitSize - 1)
      if (¬ neg ∧ un ≥ cutoff) ∨ (neg ∧ un > cutoff) then
        .error (.plain ("strconv.ParseInt: parsing \"" ++ s ++ "\": value out of range"))
      else
        .ok (if neg then - (un : Int) else (un : Int))

/-- The error of `doInitWave` for a version that does not exceed production. -/
def errNotNewer : GoError :=
  .plain "Cannot create a Wave for a version lower than or equal to production Targets for the same tag"

/-- The error of `doInitWave` for a CI Target whose name production already holds. -/
def errExists (name tag : String) : GoError :=
  .plain ("Target " ++ name ++ " already exists in production Targets for tag " ++ tag)

/-- The body of the merge loop of `doInitWave` (lines 100-119) for one CI Target: the new
contents of the Targets map, or the way the command ends. -/
def mergeTarget (api : Api) (tag sourceTag : String) (targets : Files) (name : String)
    (file : FileMeta) : Except Exit Files :=
  if (targets.get name).isSome then
    .error (.die (errExists name tag) [])
  else
    let insert : Except Exit Files :=
      match replaceTags file tag with
      | .error (.panic text) => .error (.panic text)
      | .error (.err e) => .error (.die e ["Malformed CI Target custom field " ++ name])
      | .ok file => .ok (targets.set name file)
    if sourceTag.length > 0 then
      match DieNotNil (api.TargetCustom file) [] with
      | .error e => .error e
      | .ok custom => if custom.Tags.contains sourceTag then insert else .ok targets
    else
      insert

/-- The merge loop of `doInitWave` (lines 99-120) over the CI Targets in the order they are
visited.  It works on the one map that the new document shares with the production document,
so it returns the contents of that map when the loop stops, together with the way the
command ended if it ended inside the loop. -/
def mergeLoop (api : Api) (tag sourceTag : String) :
    List (String × FileMeta) → Files → Files × Option Exit
  | [], targets => (targets, none)
  | (name, file) :: rest, targets =>
    match mergeTarget api tag sourceTag targets name file with
    | .error e => (targets, some e)
    | .ok targets => mergeLoop api tag sourceTag rest targets

/-- Lines 85-97 of `doInitWave`: the new Targets document before the merge.  It takes the
Targets map of the production document, if there is one, and then the version must exceed
the version of production. -/
def newTargets (expires intVersion : Int) (current_targets : Option AtsTufTargets) :
    Except Exit AtsTargetsMeta :=
  let targets : AtsTargetsMeta :=
    { Type_ := "Targets", Expires := expires, Version := intVersion, Targets := [] }
  match current_targets with
  | none => .ok { targets with Targets := [] }
  | some current =>
    let targets := { targets with Targets := current.Signed.Targets }
    if targets.Version ≤ current.Signed.Version then
      .error (.die errNotNewer [])
    else
      .ok targets

/-- Lines 122-127 of `doInitWave`: the optional prune of the merged document. -/
def pruneStep (api : Api) (prune : List String) (version : String) (targets : AtsTargetsMeta) :
    Except Exit AtsTargetsMeta :=
  if prune.length > 0 then
    if prune.contains version then
      .error (.die (.plain "Cannot prune current version") [])
    else
      pruneTargets api targets prune
  else
    .ok targets

/-- Whether the year of an instant is one of 0 to 9999, the years that `Time.MarshalJSON`
accepts: the instant is not before 0000-01-01T00:00:00Z and is before
10000-01-01T00:00:00Z. -/
def yearInRange (t : Int) : Bool :=
  decide (-62167219200 * Second ≤ t) && decide (t < 253402300800 * Second)

/-- The call `json.MarshalCanonical(targets)` of line 129.  The canonical bytes stand for
the document they encode; the encoder fails when `Time.MarshalJSON` refuses the expiration,
which it does for a year outside of 0 to 9999. -/
def MarshalCanonicalTargets (targets : AtsTargetsMeta) : Except GoError AtsTargetsMeta :=
  if yearInRange targets.Expires then
    .ok targets
  else
    .error (.plain
      "json: error calling MarshalJSON for type time.Time: Time.MarshalJSON: year outside of range [0,9999]")

/-- Lines 129-152 of `doInitWave`: the document is serialized and signed, the signatures it
had are dropped, and the Wave is printed (dry run) or submitted.  Printing encodes three
strings, the signatures and the bytes that the encoder has just written, so it meets no
error. -/
def createWave (api : Api) (keys : Keys) (factory : String) (offlineKeys : OfflineCreds)
    (dryRun : Bool) (name version tag : String) (targets : AtsTargetsMeta) :
    Except Exit WaveCreate := do
  let meta ← DieNotNil (MarshalCanonicalTargets targets) ["Failed to serialize new Targets"]
  let signatures ← signTargets api keys meta factory offlineKeys
  let wave : WaveCreate :=
    { Name := name, Version := version, Tag := tag,
      Targets := { Signatures := signatures, Signed := meta } }
  if dryRun then
    return wave
  else
    let _ ← DieNotNil (api.FactoryCreateWave factory wave) ["Failed to create a Wave"]
    return wave

/-- The function `doInitWave` of `waves/init.go`, from its arguments to the Wave it prints
(dry run) or submits: the value is that Wave, or the way the command ends before.  The
advisory on static deltas, which follows the submission, is not part of the embedding. -/
def doInitWave (api : Api) (keys : Keys) (clock : Clock) (factory : String) (flags : Flags)
    (name version tag : String) : Except Exit WaveCreate := do
  let intVersion ← DieNotNil (ParseInt version 32) ["Version must be an integer"]
  let expires ← readExpiration clock flags
  let dryRun := flags.dryRun
  let prune := flags.prune
  let sourceTag := flags.sourceTag
  let offlineKeys ← readOfflineKeys keys flags
  let new_targets ← DieNotNil (api.TargetsList factory version) []
  if new_targets.length = 0 then
    throw (.die (.plain ("No targets found for version " ++ version)) [])
  else
    let current_targets ← DieNotNil (api.ProdTargetsGet factory tag false) []
    let targets ← newTargets expires intVersion current_targets
    match mergeLoop api tag sourceTag new_targets targets.Targets with
    | (_, some e) => throw e
    | (merged, none) =>
      let targets ← pruneStep api prune version { targets with Targets := merged }
      createWave api keys factory offlineKeys dryRun name version tag targets

/-! ## Applying staged TUF root updates (`doTufUpdatesApply`) -/

/-- The head of the message of a failed apply, up to the error it wraps. -/
def applyFailed : String := "Failed to apply staged TUF root updates:\n"

/-- The advice appended to the message when the failure is not fatal. -/
def adviceNonFatal : String :=
  "No changes were made to your Factory.\nThere are two options available for you now:\n- fix the errors listed above and run the \"fioctl keys tuf updates apply\" again.\n- cancel the staged TUF root updates using the \"fioctl keys tuf updates cancel\""

/-- The advice appended to the message otherwise. -/
def adviceCritical : String :=
  "\nThis is a critical error: Staged TUF root updates may be only partially applied to your Factory.\nPlease re-run the \"fioctl keys tuf updates apply\" soon after a short pause.\nIf the error persists, please contact customer support."

/-- The text printed after the updates were applied. -/
def applied : String :=
  "The staged TUF root updates were applied to your Factory.\nPlease, make sure that the updated TUF keys file(s) are stored in a safe place."

/-- The error of the apply command when the server has no updates in progress. -/
def errNoUpdates : GoError := .plain "There are no TUF root updates in progress."

/-- The status codes of a failed apply that left the Factory as it was. -/
def nonFatalCodes : List Int := [400, 401, 403, 422, 423]

/-- The call `fmt.Errorf(msg, err)` for a format with one `%w`: the text before the verb,
the text of the error, the text after. -/
def Errorf (before : String) (err : GoError) (after : String) : GoError :=
  .plain (before ++ err.Error ++ after)

/-- The function `doTufUpdatesApply` of `keys/tuf_updates_apply.go`: the text it prints when
the updates were applied, or the way the command ends. -/
def doTufUpdatesApply (api : Api) (factory txid : String) : Except Exit String :=
  match api.TufRootUpdatesApply factory txid with
  | .ok _ => .ok applied
  | .error err => do
    let isNonFatal ← match AsHttpError err with
      | some herr => do
        if herr.StatusCode = 404 then
          match api.TufRootUpdatesGet factory with
          | .ok updates =>
            if updates.Status = TufRootUpdatesStatusNone then
              throw (.die errNoUpdates [])
          | .error _ => pure ()
        pure (nonFatalCodes.contains herr.StatusCode)
      | none => pure false
    let msg := if isNonFatal then adviceNonFatal else adviceCritical
    throw (.die (Errorf applyFailed err ("\n" ++ msg)) [])

/-- Whether a text contains a word. -/
def mentions (text word : String) : Bool :=
  text.toList.tails.any (fun t => word.toList.isPrefixOf t)

/-! ## Vocabulary of the statements -/

/-- Whether the merge selects a CI Target: always when no source tag is configured, else
when the tag list of its custom document contains the source tag. -/
def selected (api : Api) (sourceTag : String) (file : FileMeta) : Bool :=
  if sourceTag.length > 0 then
    match api.TargetCustom file with
    | .ok custom => custom.Tags.contains sourceTag
    | .error _ => false
  else
    true

/-- A CI Target the merge can handle: its custom document decodes when the source-tag
filter has to read it, and `replaceTags` succeeds on it for the destination tag when the
Target is selected. -/
def Mergeable (api : Api) (tag sourceTag : String) (file : FileMeta) : Prop :=
  (sourceTag.length > 0 → ∃ custom, api.TargetCustom file = .ok custom)
    ∧ (selected api sourceTag file = true → ∃ out, replaceTags file tag = .ok out)

/-- The value that decoding into an `interface{}` and encoding canonically make of a JSON
value, if both succeed. -/
def roundTrip (value : Json) : Option Json :=
  match decodeValue value with
  | .ok decoded => (encodeValue decoded).toOption
  | .error _ => none

/-- The entry the merge makes for a CI Target: none if the Target is not selected, else the
Target with its tags replaced. -/
def mergedEntry (api : Api) (tag sourceTag : String) (file : FileMeta) : Option FileMeta :=
  if selected api sourceTag file then (replaceTags file tag).toOption else none

/-- Whether a failed apply is the clean case: the status is 404 and the server, queried
again, reports the status "none". -/
def nothingToApply (api : Api) (factory : String) (err : GoError) : Bool :=
  match AsHttpError err with
  | some herr =>
    decide (herr.StatusCode = 404) &&
      (match api.TufRootUpdatesGet factory with
        | .ok updates => decide (updates.Status = TufRootUpdatesStatusNone)
        | .error _ => false)
  | none => false

/-- Whether an error is an HTTP error with one of the non-fatal status codes. -/
def isNonFatal (err : GoError) : Bool :=
  match AsHttpError err with
  | some herr => nonFatalCodes.contains herr.StatusCode
  | none => false

/-- Whether the custom document of a Target decodes to the given version label. -/
def versionIs (api : Api) (label : String) (file : FileMeta) : Bool :=
  match api.TargetCustom file with
  | .ok custom => decide (custom.Version = label)
  | .error _ => false

/-- Whether a label matches the custom version of some Target of the set. -/
def matchesSome (api : Api) (targets : Files) (label : String) : Bool :=
  targets.any (fun nf => versionIs api label nf.2)

/-- The requested labels that the prune reports, in requested order, given the labels
`seen` that were requested before: a label is reported when it matches no Target of the
set or when it was requested before. -/
def unmatched (api : Api) (targets : Files) : List String → List String → List String
  | _, [] => []
  | seen, label :: rest =>
    if seen.contains label || !matchesSome api targets label then
      label :: unmatched api targets (label :: seen) rest
    else
      unmatched api targets (label :: seen) rest

/-- The Targets that a prune of the labels `seen` leaves. -/
def unpruned (api : Api) (targets : Files) (seen : List String) : Files :=
  targets.filter (fun nf => !seen.any (fun label => versionIs api label nf.2))

/-! ## A Factory to run the commands on -/

/-- The strings of a JSON array of strings; `none` when an item is not a string. -/
def stringItems : List Json → Option (List String)
  | [] => some []
  | .str s :: rest => (stringItems rest).map (fun l => s :: l)
  | _ :: _ => none

/-- Modelled from the spec: `api.TargetCustom` belongs to the client package, outside the
sources at hand.  The spec describes the custom annotations as a key-value map with
`tags`, a list of strings, and a version label; the decoder reads these two members of the
custom object, an absent member reading as empty. -/
def TargetCustom (file : FileMeta) : Except GoError TufCustom :=
  match file.Custom with
  | none => .error (.plain "unexpected end of JSON input")
  | some (.obj members) =>
    let tags : Option (List String) :=
      match (Json.obj members).member "tags" with
      | none => some []
      | some (.arr items) => stringItems items
      | some _ => none
    let version : Option String :=
      match (Json.obj members).member "version" with
      | none => some ""
      | some (.str s) => some s
      | some _ => none
    match tags, version with
    | some tags, some version => .ok { Tags := tags, Version := version }
    | _, _ => .error (.plain "json: cannot unmarshal value into Go struct field of TufCustom")
  | some _ => .error (.plain "json: cannot unmarshal value into Go value of type client.TufCustom")

/-- A Target of the given version label and tags. -/
def mkTarget (version : String) (tags : List String) : FileMeta :=
  { Length := 1024, Hashes := [("sha256", "00")],
    Custom := some (.obj [("tags", .arr (tags.map Json.str)), ("version", .str version)]) }

/-- A root whose targets role lists the key IDs given with their public values. -/
def mkRoot (targetsKeys : List (String × String)) : AtsTufRoot :=
  { Signed :=
    { Keys := targetsKeys.map (fun kp => (kp.1, { KeyType := "ED25519", KeyValue := { Public := kp.2 } })),
      Roles := [("targets", { KeyIDs := targetsKeys.map Prod.fst, Threshold := 1 })] } }

/-- A Factory given by its CI Targets (the same for every version asked), its production
Targets, its root and online key, and the answers of the root-updates endpoints. -/
def mkApi (ci : Files) (prod : Option AtsTufTargets) (root : AtsTufRoot) (online : String)
    (apply : Except GoError Unit) (updates : Except GoError TufRootUpdates) : Api :=
  { TargetsList := fun _ _ => .ok ci
    ProdTargetsGet := fun _ _ _ => .ok prod
    TargetCustom := TargetCustom
    TufRootGet := fun _ => .ok root
    TufTargetsOnlineKey := fun _ => .ok { KeyType := "ED25519", KeyValue := { Public := online } }
    FactoryCreateWave := fun _ _ => .ok ()
    TufRootUpdatesApply := fun _ _ => apply
    TufRootUpdatesGet := fun _ => updates }

/-- A `keys` package whose archive, at any path, holds the private keys of the key IDs
`held`: the signer is the first candidate the archive holds, and a signature names its key. -/
def mkKeys (held : List String) : Keys :=
  { GetOfflineCreds := fun _ => .ok (held.map (fun kid => (kid, "private")))
    FindOneTufSigner := fun _ creds kids =>
      match kids.find? (fun kid => (creds.get kid).isSome) with
      | some kid => .ok { Id := kid, Key := "private" }
      | none => .error (.plain "no signer")
    SignTufMeta := fun _ signer => .ok [{ KeyID := signer.Id, Method := "ed25519", Signature := "sig" }]
    ErrMsgReadingTufKey := fun role which => "Failed to read " ++ which ++ " " ++ role ++ " key" }

/-- A clock that stands at the given instant and reads no date. -/
def mkClock (now : Int) : Clock :=
  { Now := now, Parse := fun _ => .error (.plain "parsing time") }

/-- The flags of a dry run `wave init -d -k <keys>` with the given prune list and source
tag. -/
def mkFlags (keys : String) (prune : List String) (sourceTag : String) : Flags :=
  { expiresDays := none, expiresAt := none, dryRun := true, prune := prune, keys := keys,
    sourceTag := sourceTag }

/-- The production document of the example scenario: version 10 holding `app-v10`. -/
def prodV10 : AtsTufTargets :=
  { Signatures := [],
    Signed := { Type_ := "Targets", Expires := 0, Version := 10,
                Targets := [("app-v10", mkTarget "10" ["production"])] } }

/-- The Factory of the example scenario: CI holds `app-v16` tagged "ci", production is
`prodV10`, the targets role lists the keys A and B, and B is the online key. -/
def exampleApi : Api :=
  mkApi [("app-v16", mkTarget "16" ["ci"])] (some prodV10) (mkRoot [("A", "pa"), ("B", "pb")])
    "pb" (.ok ()) (.ok { Status := "none" })

/-- A Factory whose CI list is visited `app-v16` first and then `app-v10`, a name that
production (`prodV10`) holds already. -/
def clashApi : Api :=
  mkApi [("app-v16", mkTarget "16" ["ci"]), ("app-v10", mkTarget "16" ["ci"])] (some prodV10)
    (mkRoot [("A", "pa"), ("B", "pb")]) "pb" (.ok ()) (.ok { Status := "none" })

/-- The CI Targets of version 16 in a Factory with two tags: `app-v16` tagged "ci" and
"nightly", `dev-v16` tagged "devel". -/
def taggedCI : Files :=
  [("app-v16", mkTarget "16" ["ci", "nightly"]), ("dev-v16", mkTarget "16" ["devel"])]

/-- The Factory of `taggedCI`, over the production document `prodV10`. -/
def taggedApi : Api :=
  mkApi taggedCI (some prodV10) (mkRoot [("A", "pa"), ("B", "pb")]) "pb" (.ok ())
    (.ok { Status := "none" })

/-- A Factory whose CI has no Targets for the version asked, over `prodV10`. -/
def emptyApi : Api :=
  mkApi [] (some prodV10) (mkRoot [("A", "pa"), ("B", "pb")]) "pb" (.ok ())
    (.ok { Status := "none" })

/-- A Factory whose apply call and status query answer as given. -/
def applyApi (apply : Except GoError Unit) (updates : Except GoError TufRootUpdates) : Api :=
  mkApi [] none (mkRoot []) "" apply updates

/-- A Factory given by its root and online public key only. -/
def rootApi (root : AtsTufRoot) (online : String) : Api :=
  mkApi [] none root online (.ok ()) (.ok { Status := "none" })

/-- A merged document of version 16 whose only Target has the custom version "2". -/
def docV2 : AtsTargetsMeta :=
  { Type_ := "Targets", Expires := 0, Version := 16,
    Targets := [("app-v2", mkTarget "2" ["production"])] }

/-- A merged document of version 16 with one Target of custom version "1" and one of
custom version "2". -/
def docV12 : AtsTargetsMeta :=
  { Type_ := "Targets", Expires := 7, Version := 16,
    Targets := [("app-v1", mkTarget "1" ["production"]), ("app-v2", mkTarget "2" ["production"])] }

/-- A clock that stands at `now` and reads every date as the instant `parsed`. -/
def parsingClock (now parsed : Int) : Clock :=
  { Now := now, Parse := fun _ => .ok parsed }

/-! ## Lemmas on maps -/

namespace GoMap

variable {β : Type}

theorem get_set_self (m : GoMap β) (k : String) (v : β) : (m.set k v).get k = some v := by
  induction m with
  | nil => simp [set, get]
  | cons hd tl ih =>
    obtain ⟨k0, w⟩ := hd
    by_cases h : k0 = k
    · simp [set, get, h]
    · simp [set, get, h, ih]

theorem get_set_other (m : GoMap β) (k k2 : String) (v : β) (h : k ≠ k2) :
    (m.set k v).get k2 = m.get k2 := by
  induction m with
  | nil => simp [set, get, h]
  | cons hd tl ih =>
    obtain ⟨k0, w⟩ := hd
    by_cases h0 : k0 = k
    · subst h0
      simp [set, get, h]
    · by_cases h2 : k0 = k2
      · subst h2
        simp [set, get, h0]
      · simp [set, get, h0, h2, ih]

theorem get_set (m : GoMap β) (k k2 : String) (v : β) :
    (m.set k v).get k2 = if k = k2 then some v else m.get k2 := by
  by_cases h : k = k2
  · subst h
    simp [get_set_self]
  · simp [h, get_set_other m k k2 v h]

theorem get_append (m1 m2 : GoMap β) (k : String) :
    get (m1 ++ m2) k = (get m1 k).orElse (fun _ => get m2 k) := by
  induction m1 with
  | nil => simp [get]
  | cons hd tl ih =>
    obtain ⟨k0, w⟩ := hd
    by_cases h : k0 = k
    · simp [get, h]
    · simp [get, h, ih]

/-- Filling a map entry after entry reads like the reversed list: the last write wins. -/
theorem get_foldl_set (kvs : List (String × β)) (m : GoMap β) (k : String) :
    (kvs.foldl (fun m kv => m.set kv.1 kv.2) m).get k
      = (get kvs.reverse k).orElse (fun _ => m.get k) := by
  induction kvs generalizing m with
  | nil => simp [get]
  | cons hd tl ih =>
    obtain ⟨k0, w⟩ := hd
    simp only [List.foldl_cons, List.reverse_cons]
    rw [ih, get_append, get_set]
    cases hrev : get tl.reverse k with
    | some x => simp
    | none =>
      by_cases h : k0 = k
      · simp [get, h]
      · simp [get, h]

theorem keys_set (m : GoMap β) (k : String) (v : β) :
    (m.set k v).keys = if k ∈ m.keys then m.keys else m.keys ++ [k] := by
  induction m with
  | nil => simp [set, keys]
  | cons hd tl ih =>
    obtain ⟨k0, w⟩ := hd
    by_cases h : k0 = k
    · subst h
      simp [set, keys]
    · have h2 : ¬ k = k0 := fun e => h e.symm
      simp only [keys] at ih
      by_cases hm : k ∈ List.map Prod.fst tl
      · simp [set, keys, h, h2, hm, ih]
      · simp [set, keys, h, h2, hm, ih]

theorem nodup_keys_set (m : GoMap β) (k : String) (v : β) (h : m.keys.Nodup) :
    (m.set k v).keys.Nodup := by
  rw [keys_set]
  by_cases hm : k ∈ m.keys
  · simpa [hm] using h
  · simp only [hm, if_false]
    exact List.Nodup.append h (List.nodup_singleton k) (by simpa using hm)

theorem nodup_keys_foldl_set (kvs : List (String × β)) (m : GoMap β) (h : m.keys.Nodup) :
    (kvs.foldl (fun m kv => m.set kv.1 kv.2) m).keys.Nodup := by
  induction kvs generalizing m with
  | nil => simpa using h
  | cons hd tl ih => exact ih _ (nodup_keys_set m hd.1 hd.2 h)

theorem get_eq_some_iff (m : GoMap β) (h : m.keys.Nodup) (k : String) (v : β) :
    m.get k = some v ↔ (k, v) ∈ m := by
  induction m with
  | nil => simp [get]
  | cons hd tl ih =>
    obtain ⟨k0, w⟩ := hd
    simp only [keys, List.map_cons, List.nodup_cons] at h
    by_cases h0 : k0 = k
    · subst h0
      have hnot : (k0, v) ∉ tl := fun hin => h.1 (List.mem_map.mpr ⟨(k0, v), hin, rfl⟩)
      simp only [get, if_true, Option.some.injEq, List.mem_cons, Prod.mk.injEq, true_and]
      constructor
      · intro e
        exact Or.inl e.symm
      · rintro (e | e)
        · exact e.symm
        · exact absurd e hnot
    · have h2 : ¬ k = k0 := fun e => h0 e.symm
      simp [get, h0, h2, ih h.2]

/-- With unique keys the order of the entries does not matter to a read. -/
theorem get_reverse (m : GoMap β) (h : m.keys.Nodup) (k : String) :
    get m.reverse k = get m k := by
  have hr : (keys m.reverse).Nodup := by
    simpa [keys, List.map_reverse] using h
  apply Option.ext
  intro v
  simp only [Option.mem_def]
  rw [get_eq_some_iff _ hr, get_eq_some_iff _ h, List.mem_reverse]

end GoMap

theorem pruneTargets_Version (api : Api) (t out : AtsTargetsMeta) (versions : List String)
    (h : pruneTargets api t versions = .ok out) :
    out.Version = t.Version ∧ out.Expires = t.Expires ∧ out.Type_ = t.Type_ := by
  unfold pruneTargets at h
  split at h
  · cases h
  · split at h
    · cases h
    · cases h
      exact ⟨rfl, rfl, rfl⟩

/-! ## Lemmas on the run of a command -/

theorem DieNotNil_eq_ok {α : Type} (r : Except GoError α) (message : List String) (a : α) :
    DieNotNil r message = .ok a ↔ r = .ok a := by
  cases r with
  | ok b => simp [DieNotNil]
  | error f => simp [DieNotNil]

theorem bind_eq_ok {ε α β : Type} (x : Except ε α) (f : α → Except ε β) (b : β) :
    (x >>= f) = .ok b ↔ ∃ a, x = .ok a ∧ f a = .ok b := by
  cases x with
  | ok a => simp [bind, Except.bind]
  | error e => simp [bind, Except.bind]

/-- The runs of `doInitWave` that reach a Wave, stage by stage. -/
theorem doInitWave_eq_ok_iff (api : Api) (keys : Keys) (clock : Clock) (factory : String)
    (flags : Flags) (name version tag : String) (wave : WaveCreate) :
    doInitWave api keys clock factory flags name version tag = .ok wave ↔
      ∃ V expires creds ci cur t0 merged t1,
        ParseInt version 32 = .ok V ∧ readExpiration clock flags = .ok expires
        ∧ keys.GetOfflineCreds flags.keys = .ok creds
        ∧ api.TargetsList factory version = .ok ci ∧ ci ≠ []
        ∧ api.ProdTargetsGet factory tag false = .ok cur
        ∧ newTargets expires V cur = .ok t0
        ∧ mergeLoop api tag flags.sourceTag ci t0.Targets = (merged, none)
        ∧ pruneStep api flags.prune version { t0 with Targets := merged } = .ok t1
        ∧ createWave api keys factory creds flags.dryRun name version tag t1 = .ok wave := by
  unfold doInitWave
  simp only [bind_eq_ok, DieNotNil_eq_ok, readOfflineKeys]
  constructor
  · rintro ⟨V, hV, expires, hexp, creds, hcreds, ci, hci, h⟩
    by_cases hlen : ci.length = 0
    · simp [hlen, throw, throwThe, MonadExceptOf.throw] at h
    · rw [if_neg hlen] at h
      simp only [bind_eq_ok, DieNotNil_eq_ok] at h
      obtain ⟨cur, hcur, t0, ht0, h⟩ := h
      cases hm : mergeLoop api tag flags.sourceTag ci t0.Targets with
      | mk merged oe =>
        rw [hm] at h
        cases oe with
        | some e => simp [throw, throwThe, MonadExceptOf.throw] at h
        | none =>
          simp only [bind_eq_ok] at h
          obtain ⟨t1, ht1, hw⟩ := h
          exact ⟨V, expires, creds, ci, cur, t0, merged, t1, hV, hexp, hcreds, hci,
            fun e => hlen (by simp [e]), hcur, ht0, hm, ht1, hw⟩
  · rintro ⟨V, expires, creds, ci, cur, t0, merged, t1, hV, hexp, hcreds, hci, hne, hcur, ht0,
      hm, ht1, hw⟩
    have hlen : ci.length ≠ 0 := by simpa using hne
    refine ⟨V, hV, expires, hexp, creds, hcreds, ci, hci, ?_⟩
    rw [if_neg hlen]
    simp only [bind_eq_ok, DieNotNil_eq_ok]
    refine ⟨cur, hcur, t0, ht0, ?_⟩
    rw [hm]
    simp only [bind_eq_ok]
    exact ⟨t1, ht1, hw⟩

theorem newTargets_eq_ok (expires V : Int) (cur : Option AtsTufTargets) (t0 : AtsTargetsMeta)
    (h : newTargets expires V cur = .ok t0) :
    t0.Version = V ∧ t0.Expires = expires ∧ t0.Type_ = "Targets"
      ∧ (cur = none → t0.Targets = [])
      ∧ ∀ current, cur = some current →
          current.Signed.Version < V ∧ t0.Targets = current.Signed.Targets := by
  cases cur with
  | none =>
    simp only [newTargets, Except.ok.injEq] at h
    subst h
    simp
  | some current =>
    simp only [newTargets] at h
    split at h
    · cases h
    · rename_i hlt
      simp only [Except.ok.injEq] at h
      subst h
      refine ⟨rfl, rfl, rfl, by simp, ?_⟩
      intro c hc
      cases hc
      exact ⟨by omega, rfl⟩

theorem pruneStep_header (api : Api) (prune : List String) (version : String)
    (t out : AtsTargetsMeta) (h : pruneStep api prune version t = .ok out) :
    out.Version = t.Version ∧ out.Expires = t.Expires ∧ out.Type_ = t.Type_ := by
  unfold pruneStep at h
  split at h
  · split at h
    · cases h
    · exact pruneTargets_Version api t out prune h
  · cases h
    exact ⟨rfl, rfl, rfl⟩

theorem MarshalCanonicalTargets_eq_ok (t out : AtsTargetsMeta) :
    MarshalCanonicalTargets t = .ok out ↔ yearInRange t.Expires = true ∧ out = t := by
  unfold MarshalCanonicalTargets
  by_cases h : yearInRange t.Expires = true
  · simp [h, eq_comm]
  · simp [h]

theorem createWave_eq_ok (api : Api) (keys : Keys) (factory : String) (creds : OfflineCreds)
    (dryRun : Bool) (name version tag : String) (t : AtsTargetsMeta) (wave : WaveCreate)
    (h : createWave api keys factory creds dryRun name version tag t = .ok wave) :
    wave.Targets.Signed = t ∧ wave.Name = name ∧ wave.Version = version ∧ wave.Tag = tag
      ∧ signTargets api keys t factory creds = .ok wave.Targets.Signatures
      ∧ yearInRange t.Expires = true := by
  unfold createWave at h
  simp only [bind_eq_ok, DieNotNil_eq_ok, MarshalCanonicalTargets_eq_ok] at h
  obtain ⟨doc, ⟨hyear, hdoc⟩, sigs, hs, h⟩ := h
  subst hdoc
  cases dryRun with
  | true =>
    simp only [if_true, pure, Except.pure, Except.ok.injEq] at h
    subst h
    exact ⟨rfl, rfl, rfl, rfl, hs, hyear⟩
  | false =>
    simp only [Bool.false_eq_true, if_false, bind_eq_ok, pure, Except.pure, Except.ok.injEq] at h
    obtain ⟨_, _, h⟩ := h
    subst h
    exact ⟨rfl, rfl, rfl, rfl, hs, hyear⟩

/-! ## Lemmas on the tag rewrite -/

theorem decodeMembers_rel (members : List (String × Json)) (entries : List (String × Value))
    (h : decodeMembers members = .ok entries) :
    List.Forall₂ (fun a b => a.1 = b.1 ∧ (decodeValue a.2).toOption = some b.2)
      members entries := by
  induction members generalizing entries with
  | nil =>
    simp only [decodeMembers, Except.ok.injEq] at h
    subst h
    exact List.Forall₂.nil
  | cons hd tl ih =>
    obtain ⟨key, item⟩ := hd
    simp only [decodeMembers] at h
    split at h
    · rename_i value values hv hvs
      simp only [Except.ok.injEq] at h
      subst h
      exact List.Forall₂.cons ⟨rfl, by simp [hv, Except.toOption]⟩ (ih values hvs)
    · cases h
    · cases h

theorem encodeMembers_rel (entries : List (String × Value)) (members : List (String × Json))
    (h : encodeMembers entries = .ok members) :
    List.Forall₂ (fun a b => a.1 = b.1 ∧ (encodeValue a.2).toOption = some b.2)
      entries members := by
  induction entries generalizing members with
  | nil =>
    simp only [encodeMembers, Except.ok.injEq] at h
    subst h
    exact List.Forall₂.nil
  | cons hd tl ih =>
    obtain ⟨key, item⟩ := hd
    simp only [encodeMembers] at h
    split at h
    · rename_i value values hv hvs
      simp only [Except.ok.injEq] at h
      subst h
      exact List.Forall₂.cons ⟨rfl, by simp [hv, Except.toOption]⟩ (ih values hvs)
    · cases h
    · cases h

/-- Two maps related entry by entry: same keys, values related by `f`. -/
theorem GoMap.get_of_rel {α β : Type} (f : α → Option β) (l1 : GoMap α) (l2 : GoMap β)
    (h : List.Forall₂ (fun a b => a.1 = b.1 ∧ f a.2 = some b.2) l1 l2) (k : String) :
    GoMap.get l2 k = (GoMap.get l1 k).bind f := by
  induction l1 generalizing l2 with
  | nil =>
    cases h
    rfl
  | cons a t1 ih =>
    cases h with
    | cons hab ht =>
      rename_i b t2
      obtain ⟨ka, va⟩ := a
      obtain ⟨kb, vb⟩ := b
      obtain ⟨hk, hf⟩ := hab
      simp only at hk hf
      subst hk
      by_cases h0 : ka = k
      · simp [GoMap.get, h0, hf]
      · simp [GoMap.get, h0, ih t2 ht]

theorem GoMap.keys_of_rel {α β : Type} (f : α → Option β) (l1 : GoMap α) (l2 : GoMap β)
    (h : List.Forall₂ (fun a b => a.1 = b.1 ∧ f a.2 = some b.2) l1 l2) :
    GoMap.keys l2 = GoMap.keys l1 := by
  induction l1 generalizing l2 with
  | nil =>
    cases h
    rfl
  | cons a t1 ih =>
    cases h with
    | cons hab ht =>
      rename_i b t2
      simp only [GoMap.keys, List.map_cons] at ih ⊢
      rw [ih t2 ht, hab.1]

theorem GoMap.mem_set {β : Type} (m : GoMap β) (k : String) (v : β) (kv : String × β)
    (h : kv ∈ m.set k v) : kv ∈ m ∨ kv = (k, v) := by
  induction m with
  | nil =>
    simp only [GoMap.set, List.mem_singleton] at h
    exact Or.inr h
  | cons hd tl ih =>
    obtain ⟨k0, w⟩ := hd
    by_cases h0 : k0 = k
    · subst h0
      simp only [GoMap.set, if_true, List.mem_cons] at h
      rcases h with e | e
      · exact Or.inr e
      · exact Or.inl (List.mem_cons_of_mem _ e)
    · simp only [GoMap.set, h0, if_false, List.mem_cons] at h
      rcases h with e | e
      · exact Or.inl (by simp [e])
      · rcases ih e with e2 | e2
        · exact Or.inl (List.mem_cons_of_mem _ e2)
        · exact Or.inr e2

theorem GoMap.mem_foldl_set {β : Type} (kvs : List (String × β)) (m : GoMap β)
    (kv : String × β) (h : kv ∈ kvs.foldl (fun m kv => m.set kv.1 kv.2) m) :
    kv ∈ m ∨ kv ∈ kvs := by
  induction kvs generalizing m with
  | nil => exact Or.inl h
  | cons hd tl ih =>
    simp only [List.foldl_cons] at h
    rcases ih _ h with e | e
    · rcases GoMap.mem_set m hd.1 hd.2 kv e with e2 | e2
      · exact Or.inl e2
      · exact Or.inr (by simp [e2])
    · exact Or.inr (List.mem_cons_of_mem _ e)

theorem decodeMembers_total (members : List (String × Json))
    (h : ∀ kv, kv ∈ members → ∃ value, decodeValue kv.2 = .ok value) :
    ∃ entries, decodeMembers members = .ok entries := by
  induction members with
  | nil => exact ⟨[], by simp [decodeMembers]⟩
  | cons hd tl ih =>
    obtain ⟨key, item⟩ := hd
    obtain ⟨value, hv⟩ := h (key, item) (by simp)
    obtain ⟨values, hvs⟩ := ih (fun kv hkv => h kv (List.mem_cons_of_mem _ hkv))
    exact ⟨(key, value) :: values, by simp [decodeMembers, hv, hvs]⟩

theorem encodeMembers_total (entries : List (String × Value))
    (h : ∀ kv, kv ∈ entries → ∃ value, encodeValue kv.2 = .ok value) :
    ∃ members, encodeMembers entries = .ok members := by
  induction entries with
  | nil => exact ⟨[], by simp [encodeMembers]⟩
  | cons hd tl ih =>
    obtain ⟨key, item⟩ := hd
    obtain ⟨value, hv⟩ := h (key, item) (by simp)
    obtain ⟨values, hvs⟩ := ih (fun kv hkv => h kv (List.mem_cons_of_mem _ hkv))
    exact ⟨(key, value) :: values, by simp [encodeMembers, hv, hvs]⟩

theorem GoMap.mem_of_get {β : Type} (m : GoMap β) (k : String) (v : β)
    (h : m.get k = some v) : (k, v) ∈ m := by
  induction m with
  | nil => simp [GoMap.get] at h
  | cons hd tl ih =>
    obtain ⟨k0, w⟩ := hd
    by_cases h0 : k0 = k
    · subst h0
      simp only [GoMap.get, if_true, Option.some.injEq] at h
      subst h
      simp
    · simp only [GoMap.get, h0, if_false] at h
      exact List.mem_cons_of_mem _ (ih h)

theorem rel_mem_left {α β : Type} (R : α → β → Prop) (l1 : List α) (l2 : List β)
    (h : List.Forall₂ R l1 l2) (a : α) (ha : a ∈ l1) : ∃ b, b ∈ l2 ∧ R a b := by
  induction l1 generalizing l2 with
  | nil => cases ha
  | cons a0 t1 ih =>
    cases h with
    | cons hab ht =>
      rename_i b0 t2
      rcases List.mem_cons.mp ha with e | e
      · subst e
        exact ⟨b0, by simp, hab⟩
      · obtain ⟨b, hb, hr⟩ := ih t2 ht e
        exact ⟨b, List.mem_cons_of_mem _ hb, hr⟩

/-- With unique keys, two lists of the same entries read alike. -/
theorem GoMap.get_perm {β : Type} (l1 l2 : GoMap β) (hp : l1.Perm l2)
    (h : (GoMap.keys l2).Nodup) (k : String) : GoMap.get l1 k = GoMap.get l2 k := by
  have h1 : (GoMap.keys l1).Nodup := ((hp.map Prod.fst).nodup_iff).mpr h
  apply Option.ext
  intro v
  simp only [Option.mem_def]
  rw [GoMap.get_eq_some_iff _ h1, GoMap.get_eq_some_iff _ h, hp.mem_iff]

/-- Sorting the members of an object by key does not change what a decoder reads. -/
theorem GoMap.get_sortKeys_reverse {β : Type} (m : GoMap β) (h : (GoMap.keys m).Nodup)
    (k : String) : GoMap.get (sortKeys m).reverse k = GoMap.get m k :=
  GoMap.get_perm _ _ ((List.reverse_perm _).trans (List.perm_insertionSort _ m)) h k

/-- The value the encoder writes for the list of the one tag. -/
theorem encodeValue_tags (tag : String) :
    encodeValue (.slice [.string tag]) = .ok (.arr [.str tag]) := by
  simp [encodeValue, encodeItems]

/-- The members of the custom object that a successful `replaceTags` writes back: "tags"
is the one tag, and any other key reads as the round trip of what it read before. -/
theorem replaceTags_eq_ok (target out : FileMeta) (tag : String)
    (h : replaceTags target tag = .ok out) :
    ∃ members custom, target.Custom = some (.obj members) ∧ out.Custom = some (.obj custom)
      ∧ out.Length = target.Length ∧ out.Hashes = target.Hashes
      ∧ (Json.obj custom).member "tags" = some (.arr [.str tag])
      ∧ (∀ k, k ≠ "tags" →
          (Json.obj custom).member k = ((Json.obj members).member k).bind roundTrip)
      ∧ ∀ k, k ≠ "tags" → ∀ v, (Json.obj members).member k = some v →
          ∃ w, roundTrip v = some w := by
  unfold replaceTags at h
  cases hc : target.Custom with
  | none => simp [hc] at h
  | some raw =>
    cases raw with
    | obj members =>
      simp only [hc, unmarshalMap, MarshalCanonical] at h
      cases hd : decodeMembers members with
      | error err => simp [hd] at h
      | ok entries =>
        simp only [hd] at h
        cases he : encodeMembers (GoMap.set
            (entries.foldl (fun m kv => m.set kv.1 kv.2) ([] : GoMap Value)) "tags"
            (.slice [.string tag])) with
        | error err => simp [he] at h
        | ok enc =>
          simp only [he, Except.ok.injEq] at h
          subst h
          have hrel := encodeMembers_rel _ _ he
          have hget := GoMap.get_of_rel (fun v => (encodeValue v).toOption) _ _ hrel
          have hkeys := GoMap.keys_of_rel (fun v => (encodeValue v).toOption) _ _ hrel
          have hnd : (GoMap.keys enc).Nodup := by
            rw [hkeys]
            exact GoMap.nodup_keys_set _ _ _
              (GoMap.nodup_keys_foldl_set entries [] (by simp [GoMap.keys]))
          have hdrel := (List.forall₂_reverse_iff).mpr (decodeMembers_rel _ _ hd)
          have hdget := GoMap.get_of_rel (fun v => (decodeValue v).toOption) _ _ hdrel
          refine ⟨members, sortKeys enc, rfl, rfl, rfl, rfl, ?_, ?_, ?_⟩
          · show GoMap.get (sortKeys enc).reverse "tags" = _
            rw [GoMap.get_sortKeys_reverse _ hnd, hget, GoMap.get_set_self]
            simp [encodeValue_tags, Except.toOption]
          · intro k hk
            show GoMap.get (sortKeys enc).reverse k
              = (GoMap.get members.reverse k).bind roundTrip
            rw [GoMap.get_sortKeys_reverse _ hnd, hget,
              GoMap.get_set_other _ _ _ _ (Ne.symm hk), GoMap.get_foldl_set, hdget]
            cases hm : GoMap.get members.reverse k with
            | none => simp [GoMap.get]
            | some v =>
              cases hv : decodeValue v with
              | error err => simp [GoMap.get, roundTrip, hv, Except.toOption]
              | ok w => simp [GoMap.get, roundTrip, hv, Except.toOption]
          · intro k hk v hv
            have hv2 : GoMap.get members.reverse k = some v := hv
            obtain ⟨b, _, _, hdv⟩ := rel_mem_left _ _ _ hdrel (k, v)
              (GoMap.mem_of_get _ _ _ hv2)
            have hset : GoMap.get (GoMap.set
                (entries.foldl (fun m kv => m.set kv.1 kv.2) ([] : GoMap Value)) "tags"
                (.slice [.string tag])) k = some b.2 := by
              rw [GoMap.get_set_other _ _ _ _ (Ne.symm hk), GoMap.get_foldl_set, hdget, hv2]
              simp only [Option.bind] at hdv ⊢
              simp [hdv]
            obtain ⟨c, _, _, hec⟩ := rel_mem_left _ _ _ hrel (k, b.2)
              (GoMap.mem_of_get _ _ _ hset)
            refine ⟨c.2, ?_⟩
            cases hd2 : decodeValue v with
            | error err => simp [hd2, Except.toOption] at hdv
            | ok w =>
              simp only [hd2, Except.toOption, Option.some.injEq] at hdv
              subst hdv
              simpa [roundTrip, hd2] using hec
    | null => simp [hc, unmarshalMap] at h
    | bool b => simp [hc, unmarshalMap] at h
    | num m e => simp [hc, unmarshalMap] at h
    | str s => simp [hc, unmarshalMap] at h
    | arr items => simp [hc, unmarshalMap] at h

theorem rel_mem_right {α β : Type} (R : α → β → Prop) (l1 : List α) (l2 : List β)
    (h : List.Forall₂ R l1 l2) (b : β) (hb : b ∈ l2) : ∃ a, a ∈ l1 ∧ R a b := by
  induction l1 generalizing l2 with
  | nil =>
    cases h
    cases hb
  | cons a t1 ih =>
    cases h with
    | cons hab ht =>
      rename_i b0 t2
      rcases List.mem_cons.mp hb with e | e
      · subst e
        exact ⟨a, by simp, hab⟩
      · obtain ⟨a2, ha2, hr⟩ := ih t2 ht e
        exact ⟨a2, List.mem_cons_of_mem _ ha2, hr⟩

/-- The run of `replaceTags` succeeds on a custom object each of whose member values
decodes to a value that the canonical encoder accepts. -/
theorem replaceTags_total (target : FileMeta) (tag : String) (members : List (String × Json))
    (hobj : target.Custom = some (.obj members))
    (hround : ∀ kv, kv ∈ members → ∃ value, roundTrip kv.2 = some value) :
    ∃ out, replaceTags target tag = .ok out := by
  have hdec : ∀ kv, kv ∈ members → ∃ value, decodeValue kv.2 = .ok value := by
    intro kv hkv
    obtain ⟨value, hv⟩ := hround kv hkv
    cases hd : decodeValue kv.2 with
    | error err => simp [roundTrip, hd] at hv
    | ok w => exact ⟨w, rfl⟩
  obtain ⟨entries, hd⟩ := decodeMembers_total members hdec
  have hrel := decodeMembers_rel _ _ hd
  have henc : ∀ kv, kv ∈ entries → ∃ value, encodeValue kv.2 = .ok value := by
    intro kv hkv
    obtain ⟨a, ha, _, hak⟩ := rel_mem_right _ _ _ hrel kv hkv
    obtain ⟨value, hv⟩ := hround a ha
    cases hda : decodeValue a.2 with
    | error err => simp [hda, Except.toOption] at hak
    | ok w =>
      simp only [hda, Except.toOption, Option.some.injEq] at hak
      subst hak
      cases hew : encodeValue kv.2 with
      | error err => simp [roundTrip, hda, hew, Except.toOption] at hv
      | ok j => exact ⟨j, rfl⟩
  have hall : ∀ kv, kv ∈ GoMap.set (entries.foldl (fun m kv => m.set kv.1 kv.2)
      ([] : GoMap Value)) "tags" (.slice [.string tag]) →
      ∃ value, encodeValue kv.2 = .ok value := by
    intro kv hkv
    rcases GoMap.mem_set _ _ _ _ hkv with e | e
    · rcases GoMap.mem_foldl_set _ _ _ e with e2 | e2
      · cases e2
      · exact henc kv e2
    · subst e
      exact ⟨_, encodeValue_tags tag⟩
  obtain ⟨custom, he⟩ := encodeMembers_total _ hall
  exact ⟨{ target with Custom := some (.obj (sortKeys custom)) },
    by simp only [replaceTags, hobj, unmarshalMap, hd, MarshalCanonical, he]⟩

/-! ## Lemmas on the merge loop -/

/-- One step of the merge on a name the map does not hold yet. -/
theorem mergeTarget_fresh (api : Api) (tag sourceTag : String) (targets : Files) (name : String)
    (file : FileMeta) (hfresh : targets.get name = none) (hwf : Mergeable api tag sourceTag file) :
    (selected api sourceTag file = false
        ∧ mergeTarget api tag sourceTag targets name file = .ok targets)
    ∨ (selected api sourceTag file = true ∧ ∃ out, replaceTags file tag = .ok out
        ∧ mergeTarget api tag sourceTag targets name file = .ok (targets.set name out)) := by
  obtain ⟨hdec, hobj⟩ := hwf
  by_cases hlen : sourceTag.length > 0
  · obtain ⟨custom, hc⟩ := hdec hlen
    by_cases hin : sourceTag ∈ custom.Tags
    · have hsel : selected api sourceTag file = true := by simp [selected, hlen, hc, hin]
      obtain ⟨out, ho⟩ := hobj hsel
      exact Or.inr ⟨hsel, out, ho, by simp [mergeTarget, hfresh, hlen, hc, hin, ho, DieNotNil]⟩
    · have hsel : selected api sourceTag file = false := by simp [selected, hlen, hc, hin]
      exact Or.inl ⟨hsel, by simp [mergeTarget, hfresh, hlen, hc, hin, DieNotNil]⟩
  · have hsel : selected api sourceTag file = true := by simp [selected, hlen]
    obtain ⟨out, ho⟩ := hobj hsel
    exact Or.inr ⟨hsel, out, ho, by simp [mergeTarget, hfresh, hlen, ho, DieNotNil]⟩

/-- One step of the merge on a name the map holds already. -/
theorem mergeTarget_taken (api : Api) (tag sourceTag : String) (targets : Files) (name : String)
    (file : FileMeta) (htaken : (targets.get name).isSome = true) :
    mergeTarget api tag sourceTag targets name file = .error (.die (errExists name tag) []) := by
  simp [mergeTarget, htaken]

/-- The entry of a fresh step, as the statements name it. -/
theorem mergeTarget_fresh_get (api : Api) (tag sourceTag : String) (targets : Files)
    (name : String) (file : FileMeta) (hfresh : targets.get name = none)
    (hwf : Mergeable api tag sourceTag file) :
    ∃ next, mergeTarget api tag sourceTag targets name file = .ok next
      ∧ ∀ k, next.get k
          = if name = k then mergedEntry api tag sourceTag file else targets.get k := by
  rcases mergeTarget_fresh api tag sourceTag targets name file hfresh hwf with
    ⟨hsel, hm⟩ | ⟨hsel, out, ho, hm⟩
  · refine ⟨targets, hm, fun k => ?_⟩
    by_cases hk : name = k
    · subst hk
      simp [mergedEntry, hsel, hfresh]
    · simp [hk]
  · refine ⟨targets.set name out, hm, fun k => ?_⟩
    rw [GoMap.get_set]
    by_cases hk : name = k
    · simp [hk, mergedEntry, hsel, ho, Except.toOption]
    · simp [hk]

/-- The merge over CI Targets one of whose names production holds: the loop stops at the
first such name it visits, and the entries of production are still in the map. -/
theorem mergeLoop_clash (api : Api) (tag sourceTag : String) (prod : Files)
    (ci : List (String × FileMeta)) (targets : Files) (hnodup : (GoMap.keys ci).Nodup)
    (hwf : ∀ nf, nf ∈ ci → Mergeable api tag sourceTag nf.2)
    (hclash : ∃ n, n ∈ GoMap.keys ci ∧ (prod.get n).isSome = true)
    (hkeep : ∀ k f, prod.get k = some f → targets.get k = some f)
    (hsrc : ∀ k, (targets.get k).isSome = true →
      (prod.get k).isSome = true ∨ k ∉ GoMap.keys ci) :
    ∃ n stopped, n ∈ GoMap.keys ci ∧ (prod.get n).isSome = true
      ∧ mergeLoop api tag sourceTag ci targets = (stopped, some (.die (errExists n tag) []))
      ∧ ∀ k f, prod.get k = some f → stopped.get k = some f := by
  induction ci generalizing targets with
  | nil =>
    obtain ⟨n, hn, _⟩ := hclash
    simp [GoMap.keys] at hn
  | cons hd tl ih =>
    obtain ⟨name, file⟩ := hd
    simp only [GoMap.keys, List.map_cons, List.nodup_cons] at hnodup
    by_cases htaken : (targets.get name).isSome = true
    · have hprod : (prod.get name).isSome = true := by
        rcases hsrc name htaken with h | h
        · exact h
        · exact absurd (by simp [GoMap.keys]) h
      exact ⟨name, targets, by simp [GoMap.keys], hprod,
        by simp [mergeLoop, mergeTarget_taken api tag sourceTag targets name file htaken], hkeep⟩
    · have hname : targets.get name = none := by
        cases hg : targets.get name with
        | none => rfl
        | some f => simp [hg] at htaken
      have hnotprod : prod.get name = none := by
        cases hg : prod.get name with
        | none => rfl
        | some f => rw [hkeep name f hg] at hname; cases hname
      obtain ⟨next, hstep, hnext⟩ := mergeTarget_fresh_get api tag sourceTag targets name file
        hname (hwf (name, file) (by simp))
      have hclash2 : ∃ n, n ∈ GoMap.keys tl ∧ (prod.get n).isSome = true := by
        obtain ⟨n, hn, hp⟩ := hclash
        simp only [GoMap.keys, List.map_cons, List.mem_cons] at hn
        rcases hn with e | hn
        · subst e
          simp [hnotprod] at hp
        · exact ⟨n, hn, hp⟩
      have hkeep2 : ∀ k f, prod.get k = some f → next.get k = some f := by
        intro k f hk
        have hne : name ≠ k := by
          intro e
          subst e
          rw [hnotprod] at hk
          cases hk
        rw [hnext, if_neg hne]
        exact hkeep k f hk
      have hsrc2 : ∀ k, (next.get k).isSome = true →
          (prod.get k).isSome = true ∨ k ∉ GoMap.keys tl := by
        intro k hk
        by_cases hne : name = k
        · subst hne
          exact Or.inr hnodup.1
        · rw [hnext, if_neg hne] at hk
          rcases hsrc k hk with h | h
          · exact Or.inl h
          · refine Or.inr (fun hin => h ?_)
            simp only [GoMap.keys, List.map_cons, List.mem_cons]
            exact Or.inr hin
      obtain ⟨n, stopped, hn, hp, hloop, hstop⟩ := ih next hnodup.2
        (fun nf hnf => hwf nf (List.mem_cons_of_mem _ hnf)) hclash2 hkeep2 hsrc2
      refine ⟨n, stopped, ?_, hp, by simp [mergeLoop, hstep, hloop], hstop⟩
      simp only [GoMap.keys, List.map_cons, List.mem_cons]
      exact Or.inr hn

/-- The merge when no CI Target is selected leaves the map as it is. -/
theorem mergeLoop_none_selected (api : Api) (tag sourceTag : String)
    (ci : List (String × FileMeta)) (targets : Files)
    (hfresh : ∀ n, n ∈ GoMap.keys ci → targets.get n = none)
    (hwf : ∀ nf, nf ∈ ci → Mergeable api tag sourceTag nf.2)
    (hnone : ∀ nf, nf ∈ ci → selected api sourceTag nf.2 = false) :
    mergeLoop api tag sourceTag ci targets = (targets, none) := by
  induction ci with
  | nil => rfl
  | cons hd tl ih =>
    obtain ⟨name, file⟩ := hd
    have hname : targets.get name = none := hfresh name (by simp [GoMap.keys])
    have hsel : selected api sourceTag file = false := hnone (name, file) (by simp)
    rcases mergeTarget_fresh api tag sourceTag targets name file hname
      (hwf (name, file) (by simp)) with ⟨_, hm⟩ | ⟨hsel2, _⟩
    · simp only [mergeLoop, hm]
      exact ih (fun n hn => hfresh n (by simp [GoMap.keys] at hn ⊢; exact Or.inr hn))
        (fun nf hnf => hwf nf (List.mem_cons_of_mem _ hnf))
        (fun nf hnf => hnone nf (List.mem_cons_of_mem _ hnf))
    · rw [hsel] at hsel2
      cases hsel2

/-- A run of `doInitWave` without prune whose stages succeed yields the Wave of the merged
document, signed anew. -/
theorem doInitWave_of_stages (api : Api) (keys : Keys) (clock : Clock) (factory : String)
    (flags : Flags) (name version tag : String) (V expires : Int) (creds : OfflineCreds)
    (ci : Files) (cur : Option AtsTufTargets) (t0 : AtsTargetsMeta) (merged : Files)
    (sigs : List TufSignature)
    (hparse : ParseInt version 32 = .ok V)
    (hexp : readExpiration clock flags = .ok expires)
    (hkeys : keys.GetOfflineCreds flags.keys = .ok creds)
    (hci : api.TargetsList factory version = .ok ci) (hne : ci ≠ [])
    (hprod : api.ProdTargetsGet factory tag false = .ok cur)
    (hprune : flags.prune = [])
    (ht0 : newTargets expires V cur = .ok t0)
    (hmerge : mergeLoop api tag flags.sourceTag ci t0.Targets = (merged, none))
    (hyear : yearInRange t0.Expires = true)
    (hsign : signTargets api keys { t0 with Targets := merged } factory creds = .ok sigs)
    (hsubmit : flags.dryRun = false → ∀ wave, api.FactoryCreateWave factory wave = .ok ()) :
    doInitWave api keys clock factory flags name version tag
      = .ok { Name := name, Version := version, Tag := tag,
              Targets := { Signatures := sigs, Signed := { t0 with Targets := merged } } } := by
  rw [doInitWave_eq_ok_iff]
  refine ⟨V, expires, creds, ci, cur, t0, merged, { t0 with Targets := merged }, hparse, hexp,
    hkeys, hci, hne, hprod, ht0, hmerge, by simp [pruneStep, hprune], ?_⟩
  unfold createWave
  simp only [bind_eq_ok, DieNotNil_eq_ok, MarshalCanonicalTargets_eq_ok]
  refine ⟨_, ⟨hyear, rfl⟩, sigs, hsign, ?_⟩
  cases hdry : flags.dryRun with
  | true => simp [pure, Except.pure]
  | false => simp [hsubmit hdry, DieNotNil, bind, Except.bind, pure, Except.pure]

/-! ## C1: the version of a Wave exceeds production -/

/-- C1. Let `doInitWave` reach the merge: the version argument reads as the integer `V`,
expiration and offline keys are read, the CI Targets of the version are fetched and not
empty, and the production document `cur` for the tag is fetched.  Then (a) if a production
document exists and `V` is lower than or equal to its version, the command ends with
'Cannot create a Wave for a version lower than or equal to production Targets for the same
tag'; (b) every Wave the command produces carries a Targets document of version exactly `V`,
and `V` exceeds the version of the production document if there is one; (c) without a
production document the new document starts at version `V` with no Targets, whatever `V`
is: no version is compared. -/
theorem doInitWave_version_monotonic (api : Api) (keys : Keys) (clock : Clock)
    (factory : String) (flags : Flags) (name version tag : String) (V expires : Int)
    (creds : OfflineCreds) (ci : Files) (cur : Option AtsTufTargets)
    (hparse : ParseInt version 32 = .ok V)
    (hexp : readExpiration clock flags = .ok expires)
    (hkeys : keys.GetOfflineCreds flags.keys = .ok creds)
    (hci : api.TargetsList factory version = .ok ci) (hne : ci ≠ [])
    (hprod : api.ProdTargetsGet factory tag false = .ok cur) :
    (∀ current, cur = some current → V ≤ current.Signed.Version →
      doInitWave api keys clock factory flags name version tag = .error (.die errNotNewer []))
    ∧ (∀ wave, doInitWave api keys clock factory flags name version tag = .ok wave →
      wave.Targets.Signed.Version = V
        ∧ ∀ current, cur = some current → current.Signed.Version < V)
    ∧ (cur = none → newTargets expires V cur
        = .ok { Type_ := "Targets", Expires := expires, Version := V, Targets := [] }) := by
  have hlen : ci.length ≠ 0 := by simpa using hne
  refine ⟨?_, ?_, ?_⟩
  · intro current hcur hle
    subst hcur
    simp [doInitWave, hparse, hexp, readOfflineKeys, hkeys, hci, hprod, DieNotNil, hlen,
      newTargets, hle, bind, Except.bind]
  · intro wave hw
    obtain ⟨V2, expires2, creds2, ci2, cur2, t0, merged, t1, hV, _, _, _, _, hcur, ht0, _, ht1,
      hwave⟩ := (doInitWave_eq_ok_iff api keys clock factory flags name version tag wave).mp hw
    rw [hparse] at hV
    rw [hprod] at hcur
    cases hV
    cases hcur
    have h0 := newTargets_eq_ok _ _ _ _ ht0
    have h1 := pruneStep_header _ _ _ _ _ ht1
    have h2 := createWave_eq_ok _ _ _ _ _ _ _ _ _ _ hwave
    refine ⟨?_, fun current hc => (h0.2.2.2.2 current hc).1⟩
    rw [h2.1, h1.1]
    exact h0.1
  · intro hnone
    subst hnone
    rfl

/-- C1 at the example scenario: over production version 10, version 10 is refused, and
version 16 yields a Wave whose document has version 16. -/
theorem doInitWave_version_monotonic_witness :
    doInitWave exampleApi (mkKeys ["A"]) (mkClock 5) "factory" (mkFlags "creds.tgz" [] "") "wave" "10" "production"
      = .error (.die errNotNewer [])
    ∧ (doInitWave exampleApi (mkKeys ["A"]) (mkClock 5) "factory" (mkFlags "creds.tgz" [] "") "wave" "16"
        "production").isOk = true
    ∧ ∀ wave, doInitWave exampleApi (mkKeys ["A"]) (mkClock 5) "factory" (mkFlags "creds.tgz" [] "") "wave" "16"
        "production" = .ok wave → wave.Targets.Signed.Version = 16 :=
  ⟨(doInitWave_version_monotonic exampleApi (mkKeys ["A"]) (mkClock 5) "factory" (mkFlags "creds.tgz" [] "")
      "wave" "10" "production" 10 31536000000000000 [("A", "private")]
      [("app-v16", mkTarget "16" ["ci"])] (some prodV10) rfl rfl rfl rfl (by simp) rfl).1
      prodV10 rfl (by decide),
   rfl,
   fun wave h => ((doInitWave_version_monotonic exampleApi (mkKeys ["A"]) (mkClock 5) "factory"
      (mkFlags "creds.tgz" [] "") "wave" "16" "production" 16 31536000000000000 [("A", "private")]
      [("app-v16", mkTarget "16" ["ci"])] (some prodV10) rfl rfl rfl rfl (by simp) rfl).2.1
      wave h).1⟩

/-! ## C2: a CI Target named like a production Target -/

/-- C2, as the code has it.  Let `doInitWave` reach the merge over a production document of
a lower version, with CI Targets the merge can handle, and let some CI Target bear a name
that production holds.  Then the command ends with 'Target <name> already exists in
production Targets for tag <tag>' for such a name, no Wave is produced, and every entry of
production is still in the map, unchanged, when the loop stops.  (CI Targets visited before
the clash may have been inserted by then.) -/
theorem doInitWave_duplicate_name (api : Api) (keys : Keys) (clock : Clock) (factory : String)
    (flags : Flags) (name version tag : String) (V expires : Int) (creds : OfflineCreds)
    (ci : Files) (current : AtsTufTargets)
    (hparse : ParseInt version 32 = .ok V)
    (hexp : readExpiration clock flags = .ok expires)
    (hkeys : keys.GetOfflineCreds flags.keys = .ok creds)
    (hci : api.TargetsList factory version = .ok ci)
    (hprod : api.ProdTargetsGet factory tag false = .ok (some current))
    (hnewer : current.Signed.Version < V)
    (hnodup : (GoMap.keys ci).Nodup)
    (hwf : ∀ nf, nf ∈ ci → Mergeable api tag flags.sourceTag nf.2)
    (hclash : ∃ n, n ∈ GoMap.keys ci ∧ (current.Signed.Targets.get n).isSome = true) :
    ∃ n, n ∈ GoMap.keys ci ∧ (current.Signed.Targets.get n).isSome = true
      ∧ doInitWave api keys clock factory flags name version tag
          = .error (.die (errExists n tag) [])
      ∧ ∀ k f, current.Signed.Targets.get k = some f →
          (mergeLoop api tag flags.sourceTag ci current.Signed.Targets).1.get k = some f := by
  obtain ⟨n, stopped, hn, hp, hloop, hstop⟩ := mergeLoop_clash api tag flags.sourceTag
    current.Signed.Targets ci current.Signed.Targets hnodup hwf hclash (fun _ _ h => h)
    (fun _ h => Or.inl h)
  have hlen : ci.length ≠ 0 := by
    intro e
    have : ci = [] := List.length_eq_zero.mp e
    subst this
    simp [GoMap.keys] at hn
  have hnot : ¬ V ≤ current.Signed.Version := by omega
  refine ⟨n, hn, hp, ?_, ?_⟩
  · simp [doInitWave, hparse, hexp, readOfflineKeys, hkeys, hci, hprod, DieNotNil, hlen,
      newTargets, hnot, hloop, bind, Except.bind, throw, throwThe, MonadExceptOf.throw]
  · rw [hloop]
    exact hstop

/-- C2 at a Factory whose CI holds `app-v16` and `app-v10` while production holds
`app-v10`. -/
theorem doInitWave_duplicate_name_witness :
    ∃ n, n ∈ GoMap.keys [("app-v16", mkTarget "16" ["ci"]), ("app-v10", mkTarget "16" ["ci"])]
      ∧ (prodV10.Signed.Targets.get n).isSome = true
      ∧ doInitWave clashApi (mkKeys ["A"]) (mkClock 5) "factory" (mkFlags "creds.tgz" [] "") "wave" "16"
          "production" = .error (.die (errExists n "production") [])
      ∧ ∀ k f, prodV10.Signed.Targets.get k = some f →
          (mergeLoop clashApi "production" (mkFlags "creds.tgz" [] "").sourceTag
            [("app-v16", mkTarget "16" ["ci"]), ("app-v10", mkTarget "16" ["ci"])]
            prodV10.Signed.Targets).1.get k = some f :=
  doInitWave_duplicate_name clashApi (mkKeys ["A"]) (mkClock 5) "factory" (mkFlags "creds.tgz" [] "") "wave" "16"
    "production" 16 31536000000000000 [("A", "private")]
    [("app-v16", mkTarget "16" ["ci"]), ("app-v10", mkTarget "16" ["ci"])] prodV10
    rfl rfl rfl rfl rfl (by decide) (by decide)
    (by
      intro nf hnf
      simp only [List.mem_cons, List.mem_singleton, List.not_mem_nil, or_false] at hnf
      rcases hnf with e | e <;> subst e <;>
        exact ⟨fun h => absurd h (by decide), fun _ => ⟨_, rfl⟩⟩)
    ⟨"app-v10", by decide, rfl⟩

/-- C2 as stated fails: with CI visited `app-v16` first and `app-v10` second over a
production that holds `app-v10`, the command ends with the 'already exists' error for
`app-v10`, yet the production map, which had no `app-v16` before the loop, holds `app-v16`
when the loop stops. -/
theorem doInitWave_duplicate_name_inserts_before_failing :
    doInitWave clashApi (mkKeys ["A"]) (mkClock 5) "factory" (mkFlags "creds.tgz" [] "") "wave" "16" "production"
        = .error (.die (errExists "app-v10" "production") [])
    ∧ GoMap.get prodV10.Signed.Targets "app-v16" = none
    ∧ (GoMap.get (mergeLoop clashApi "production" ""
          [("app-v16", mkTarget "16" ["ci"]), ("app-v10", mkTarget "16" ["ci"])]
          prodV10.Signed.Targets).1 "app-v16").isSome = true
    ∧ (mergeLoop clashApi "production" ""
          [("app-v16", mkTarget "16" ["ci"]), ("app-v10", mkTarget "16" ["ci"])]
          prodV10.Signed.Targets).1 ≠ prodV10.Signed.Targets :=
  ⟨rfl, rfl, rfl, fun h => absurd (congrArg (fun m => (GoMap.get m "app-v16").isSome) h)
    (by decide)⟩

/-! ## C3: the tag rewrite -/

/-- C3, on the code.  Take a Target whose custom document is a JSON object, and any
destination tag.  (a) Whenever `replaceTags` succeeds, the custom document it leaves is an
object whose "tags" member is exactly the one-element list of the tag; length and hashes
are untouched; no other key is added or removed; and every other key reads as the value
that decoding into an `interface{}` and encoding canonically make of its original value.
That is not always the original value: a number passes through float64 and is written
back as `int64(f)`.  (b) When every member value comes out of that round trip as it went
in, `replaceTags` succeeds and every other key reads exactly as before. -/
theorem replaceTags_round_trips_members (target : FileMeta) (tag : String)
    (members : List (String × Json)) (hobj : target.Custom = some (.obj members)) :
    (∀ out, replaceTags target tag = .ok out →
      ∃ custom, out.Custom = some (.obj custom)
        ∧ out.Length = target.Length ∧ out.Hashes = target.Hashes
        ∧ (Json.obj custom).member "tags" = some (.arr [.str tag])
        ∧ (∀ k, k ≠ "tags" →
            ((Json.obj custom).member k).isSome = ((Json.obj members).member k).isSome)
        ∧ ∀ k, k ≠ "tags" →
            (Json.obj custom).member k = ((Json.obj members).member k).bind roundTrip)
    ∧ ((∀ kv, kv ∈ members → roundTrip kv.2 = some kv.2) →
      ∃ out custom, replaceTags target tag = .ok out ∧ out.Custom = some (.obj custom)
        ∧ out.Length = target.Length ∧ out.Hashes = target.Hashes
        ∧ (Json.obj custom).member "tags" = some (.arr [.str tag])
        ∧ ∀ k, k ≠ "tags" → (Json.obj custom).member k = (Json.obj members).member k) := by
  have hany : ∀ out, replaceTags target tag = .ok out →
      ∃ custom, out.Custom = some (.obj custom)
        ∧ out.Length = target.Length ∧ out.Hashes = target.Hashes
        ∧ (Json.obj custom).member "tags" = some (.arr [.str tag])
        ∧ (∀ k, k ≠ "tags" →
            ((Json.obj custom).member k).isSome = ((Json.obj members).member k).isSome)
        ∧ ∀ k, k ≠ "tags" →
            (Json.obj custom).member k = ((Json.obj members).member k).bind roundTrip := by
    intro out hout
    obtain ⟨members2, custom, hm, hc, hl, hh, ht, ho, hp⟩ :=
      replaceTags_eq_ok target out tag hout
    rw [hobj] at hm
    cases hm
    refine ⟨custom, hc, hl, hh, ht, fun k hk => ?_, ho⟩
    rw [ho k hk]
    cases hv : (Json.obj members).member k with
    | none => rfl
    | some v =>
      obtain ⟨w, hw⟩ := hp k hk v hv
      simp [hw]
  refine ⟨hany, fun hexact => ?_⟩
  obtain ⟨out, hout⟩ := replaceTags_total target tag members hobj
    (fun kv hkv => ⟨kv.2, hexact kv hkv⟩)
  obtain ⟨custom, hc, hl, hh, ht, _, ho⟩ := hany out hout
  refine ⟨out, custom, hout, hc, hl, hh, ht, fun k hk => ?_⟩
  rw [ho k hk]
  cases hm : (Json.obj members).member k with
  | none => rfl
  | some v =>
    have hmem : (k, v) ∈ members := by
      have := GoMap.mem_of_get members.reverse k v hm
      simpa using this
    simpa using hexact (k, v) hmem

/-- C3 at three Targets promoted to "production".  With members that the round trip
leaves alone (strings, the integer 1024) the tags become the one tag and the other members
stay.  With the member "size" equal to 9007199254740993 (2^53 + 1) `replaceTags` succeeds
and writes "size" back as 9007199254740992.  With the member "ratio" equal to 1.5 it
fails. -/
theorem replaceTags_round_trips_members_witness :
    (∃ out custom,
      replaceTags
          { Length := 7, Hashes := [],
            Custom := some (.obj [("tags", .arr [.str "ci", .str "nightly"]),
              ("version", .str "16"), ("size", .num 1024 0)]) } "production" = .ok out
      ∧ out.Custom = some (.obj custom)
      ∧ out.Length = 7 ∧ out.Hashes = []
      ∧ (Json.obj custom).member "tags" = some (.arr [.str "production"])
      ∧ ∀ k, k ≠ "tags" → (Json.obj custom).member k
          = (Json.obj [("tags", .arr [.str "ci", .str "nightly"]), ("version", .str "16"),
              ("size", .num 1024 0)]).member k)
    ∧ replaceTags
        { Length := 7, Hashes := [],
          Custom := some (.obj [("tags", .arr [.str "ci"]),
            ("size", .num 9007199254740993 0)]) } "production"
        = .ok { Length := 7, Hashes := [],
                Custom := some (.obj [("size", .num 9007199254740992 0),
                  ("tags", .arr [.str "production"])]) }
    ∧ Json.num 9007199254740992 0 ≠ Json.num 9007199254740993 0
    ∧ replaceTags
        { Length := 7, Hashes := [],
          Custom := some (.obj [("tags", .arr [.str "ci"]), ("ratio", .num 15 (-1))]) }
        "production" = .error (.err (.plain "json: unsupported value")) :=
  ⟨(replaceTags_round_trips_members
      { Length := 7, Hashes := [],
        Custom := some (.obj [("tags", .arr [.str "ci", .str "nightly"]),
          ("version", .str "16"), ("size", .num 1024 0)]) } "production"
      [("tags", .arr [.str "ci", .str "nightly"]), ("version", .str "16"),
        ("size", .num 1024 0)]
      rfl).2
      (by
        intro kv hkv
        simp only [List.mem_cons, List.mem_singleton, List.not_mem_nil, or_false] at hkv
        rcases hkv with e | e | e <;> subst e <;> rfl),
   rfl,
   fun h => absurd (Json.num.inj h).1 (by decide),
   rfl⟩

/-! ## C4: the merged Targets -/

/-- C5, as the code has it.  Let `doInitWave` read its version `V`, expiration and keys and
fetch the CI Targets `ci` and a production document of a lower version.  (a) If `ci` is
empty the command ends with 'No targets found for version <version>' and yields no
document.  (b) If `ci` is not empty, no prune is asked, no CI name is in production, the CI
Targets are ones the merge can handle, the source-tag filter selects none of them, the
expiration is in a year the encoder accepts, and signing and submission succeed, then the
command yields a Wave whose document has exactly the Targets of production, with version
`V`, the expiration read, and the signatures just computed. -/
theorem doInitWave_nothing_to_merge (api : Api) (keys : Keys) (clock : Clock)
    (factory : String) (flags : Flags) (name version tag : String) (V expires : Int)
    (creds : OfflineCreds) (ci : Files) (current : AtsTufTargets)
    (hparse : ParseInt version 32 = .ok V)
    (hexp : readExpiration clock flags = .ok expires)
    (hkeys : keys.GetOfflineCreds flags.keys = .ok creds)
    (hci : api.TargetsList factory version = .ok ci)
    (hprod : api.ProdTargetsGet factory tag false = .ok (some current))
    (hnewer : current.Signed.Version < V) :
    (ci = [] → doInitWave api keys clock factory flags name version tag
        = .error (.die (.plain ("No targets found for version " ++ version)) []))
    ∧ (ci ≠ [] → flags.prune = [] →
        (∀ n, n ∈ GoMap.keys ci → current.Signed.Targets.get n = none) →
        (∀ nf, nf ∈ ci → Mergeable api tag flags.sourceTag nf.2) →
        (∀ nf, nf ∈ ci → selected api flags.sourceTag nf.2 = false) →
        yearInRange expires = true →
        (∀ doc, ∃ sigs, signTargets api keys doc factory creds = .ok sigs) →
        (flags.dryRun = false → ∀ wave, api.FactoryCreateWave factory wave = .ok ()) →
        ∃ wave, doInitWave api keys clock factory flags name version tag = .ok wave
          ∧ wave.Targets.Signed.Targets = current.Signed.Targets
          ∧ wave.Targets.Signed.Version = V
          ∧ wave.Targets.Signed.Expires = expires
          ∧ wave.Targets.Signed.Type_ = "Targets"
          ∧ signTargets api keys wave.Targets.Signed factory creds
              = .ok wave.Targets.Signatures) := by
  constructor
  · intro hnil
    subst hnil
    simp [doInitWave, hparse, hexp, readOfflineKeys, hkeys, hci, DieNotNil, bind, Except.bind,
      throw, throwThe, MonadExceptOf.throw]
  · intro hne hprune hfresh hwf hnone hyear hsign hsubmit
    have hnot : ¬ V ≤ current.Signed.Version := by omega
    have hloop := mergeLoop_none_selected api tag flags.sourceTag ci current.Signed.Targets
      hfresh hwf hnone
    obtain ⟨sigs, hs⟩ := hsign ⟨"Targets", expires, V, current.Signed.Targets⟩
    have ht0 : newTargets expires V (some current)
        = .ok ⟨"Targets", expires, V, current.Signed.Targets⟩ := by
      simp [newTargets, hnot]
    exact ⟨_, doInitWave_of_stages api keys clock factory flags name version tag V expires creds
      ci (some current) _ current.Signed.Targets sigs hparse hexp hkeys hci hne hprod hprune ht0
      hloop hyear hs hsubmit, rfl, rfl, rfl, rfl, hs⟩

/-- C5 at the production document `prodV10`: with no CI Targets the command ends with 'No
targets found for version 16'; with the CI Targets of `taggedCI` and the source tag "qa",
which none of them bears, the document keeps exactly the Targets of production. -/
theorem doInitWave_nothing_to_merge_witness :
    doInitWave emptyApi (mkKeys ["A"]) (mkClock 5) "factory" (mkFlags "creds.tgz" [] "") "wave"
        "16" "production"
      = .error (.die (.plain ("No targets found for version " ++ "16")) [])
    ∧ ∃ wave, doInitWave taggedApi (mkKeys ["A"]) (mkClock 5) "factory"
          (mkFlags "creds.tgz" [] "qa") "wave" "16" "production" = .ok wave
        ∧ wave.Targets.Signed.Targets = prodV10.Signed.Targets
        ∧ wave.Targets.Signed.Version = 16
        ∧ wave.Targets.Signed.Expires = 31536000000000000
        ∧ wave.Targets.Signed.Type_ = "Targets"
        ∧ signTargets taggedApi (mkKeys ["A"]) wave.Targets.Signed "factory" [("A", "private")]
            = .ok wave.Targets.Signatures :=
  ⟨(doInitWave_nothing_to_merge emptyApi (mkKeys ["A"]) (mkClock 5) "factory"
      (mkFlags "creds.tgz" [] "") "wave" "16" "production" 16 31536000000000000
      [("A", "private")] [] prodV10 rfl rfl rfl rfl rfl (by decide)).1 rfl,
   (doInitWave_nothing_to_merge taggedApi (mkKeys ["A"]) (mkClock 5) "factory"
      (mkFlags "creds.tgz" [] "qa") "wave" "16" "production" 16 31536000000000000
      [("A", "private")] taggedCI prodV10 rfl rfl rfl rfl rfl (by decide)).2
      (by simp [taggedCI]) rfl
      (by
        intro n hn
        simp only [taggedCI, GoMap.keys, List.map_cons, List.map_nil, List.mem_cons,
          List.mem_singleton, List.not_mem_nil, or_false] at hn
        rcases hn with e | e <;> subst e <;> rfl)
      (by
        intro nf hnf
        simp only [taggedCI, List.mem_cons, List.mem_singleton, List.not_mem_nil, or_false] at hnf
        rcases hnf with e | e <;> subst e <;>
          exact ⟨fun _ => ⟨_, rfl⟩, fun h => absurd h (by decide)⟩)
      (by
        intro nf hnf
        simp only [taggedCI, List.mem_cons, List.mem_singleton, List.not_mem_nil, or_false] at hnf
        rcases hnf with e | e <;> subst e <;> rfl)
      (by decide)
      (fun _ => ⟨_, rfl⟩)
      (fun h => absurd h (by decide))⟩

/-- C5 as stated fails: over production version 10, a Wave build for version 16 with an
empty set of CI Targets yields no document; it ends with 'No targets found for version 16'. -/
theorem doInitWave_empty_ci_dies :
    doInitWave emptyApi (mkKeys ["A"]) (mkClock 5) "factory" (mkFlags "creds.tgz" [] "") "wave" "16" "production"
        = .error (.die (.plain "No targets found for version 16") [])
    ∧ (doInitWave emptyApi (mkKeys ["A"]) (mkClock 5) "factory" (mkFlags "creds.tgz" [] "") "wave" "16"
        "production").isOk = false :=
  ⟨rfl, rfl⟩


/-! ## Lemmas on the apply command -/

theorem Errorf_advice_ne (err : GoError) :
    Errorf applyFailed err ("\n" ++ adviceCritical)
      ≠ Errorf applyFailed err ("\n" ++ adviceNonFatal) := by
  intro h
  simp only [Errorf, GoError.plain.injEq] at h
  have h2 := congrArg String.data h
  simp only [String.data_append, List.append_cancel_left_eq] at h2
  revert h2
  decide

theorem errNoUpdates_ne_Errorf (err : GoError) (after : String) :
    Exit.die errNoUpdates [] ≠ Exit.die (Errorf applyFailed err after) [] := by
  intro h
  simp only [Errorf, errNoUpdates, Exit.die.injEq, GoError.plain.injEq, and_true] at h
  have h2 := congrArg (fun s => s.data.head?) h
  simp only [String.data_append] at h2
  revert h2
  simp [applyFailed]

/-- The run of a failed apply, case by case. -/
theorem doTufUpdatesApply_failed (api : Api) (factory txid : String) (err : GoError)
    (hfail : api.TufRootUpdatesApply factory txid = .error err) :
    doTufUpdatesApply api factory txid =
      if nothingToApply api factory err then .error (.die errNoUpdates [])
      else if isNonFatal err then
        .error (.die (Errorf applyFailed err ("\n" ++ adviceNonFatal)) [])
      else
        .error (.die (Errorf applyFailed err ("\n" ++ adviceCritical)) []) := by
  cases err with
  | plain text =>
    simp [doTufUpdatesApply, hfail, AsHttpError, nothingToApply, isNonFatal, bind, Except.bind,
      pure, Except.pure, throw, throwThe, MonadExceptOf.throw]
  | http text code =>
    by_cases h404 : code = 404
    · subst h404
      cases hget : api.TufRootUpdatesGet factory with
      | error e =>
        simp [doTufUpdatesApply, hfail, AsHttpError, nothingToApply, isNonFatal, hget, bind,
          Except.bind, pure, Except.pure, throw, throwThe, MonadExceptOf.throw, nonFatalCodes]
      | ok updates =>
        by_cases hnone : updates.Status = TufRootUpdatesStatusNone
        · simp [doTufUpdatesApply, hfail, AsHttpError, nothingToApply, hget, hnone, bind,
            Except.bind, throw, throwThe, MonadExceptOf.throw]
        · simp [doTufUpdatesApply, hfail, AsHttpError, nothingToApply, isNonFatal, hget, hnone,
            bind, Except.bind, pure, Except.pure, throw, throwThe, MonadExceptOf.throw,
            nonFatalCodes]
    · by_cases hin : code ∈ nonFatalCodes
      · simp [doTufUpdatesApply, hfail, AsHttpError, nothingToApply, isNonFatal, h404, hin, bind,
          Except.bind, pure, Except.pure, throw, throwThe, MonadExceptOf.throw]
      · simp [doTufUpdatesApply, hfail, AsHttpError, nothingToApply, isNonFatal, h404, hin, bind,
          Except.bind, pure, Except.pure, throw, throwThe, MonadExceptOf.throw]

theorem nothingToApply_not_isNonFatal (api : Api) (factory : String) (err : GoError)
    (h : nothingToApply api factory err = true) : isNonFatal err = false := by
  cases err with
  | plain text => simp [nothingToApply, AsHttpError] at h
  | http text code =>
    simp only [nothingToApply, AsHttpError, Bool.and_eq_true, decide_eq_true_eq] at h
    obtain ⟨h404, _⟩ := h
    subst h404
    simp [isNonFatal, AsHttpError, nonFatalCodes]

/-! ## C6: the classes of a failed apply -/

/-- C6, as the code has it.  For every failed apply call, (a) the message of the command is
the recoverable one, 'No changes were made to your Factory' with its two options, exactly
when the failure is an HTTP error with a status among 400, 401, 403, 422 and 423; (b) for
any other HTTP status and for a failure that is no HTTP error, the message is the critical
'may be only partially applied' one, except for a 404 on which the server, queried again,
reports the status "none" (that case ends with 'There are no TUF root updates in
progress.'); (c) the recoverable advice names both apply and cancel, the critical advice
tells to re-run apply and does not contain the word cancel. -/
theorem doTufUpdatesApply_classification (api : Api) (factory txid : String) (err : GoError)
    (hfail : api.TufRootUpdatesApply factory txid = .error err) :
    (doTufUpdatesApply api factory txid
        = .error (.die (Errorf applyFailed err ("\n" ++ adviceNonFatal)) [])
      ↔ ∃ herr, AsHttpError err = some herr ∧ herr.StatusCode ∈ nonFatalCodes)
    ∧ ((¬ ∃ herr, AsHttpError err = some herr ∧ herr.StatusCode ∈ nonFatalCodes) →
        nothingToApply api factory err = false →
        doTufUpdatesApply api factory txid
          = .error (.die (Errorf applyFailed err ("\n" ++ adviceCritical)) []))
    ∧ (mentions adviceNonFatal "No changes were made to your Factory" = true
        ∧ mentions adviceNonFatal "fioctl keys tuf updates apply" = true
        ∧ mentions adviceNonFatal "fioctl keys tuf updates cancel" = true)
    ∧ (mentions adviceCritical "may be only partially applied" = true
        ∧ mentions adviceCritical "re-run the \"fioctl keys tuf updates apply\"" = true
        ∧ mentions adviceCritical "cancel" = false) := by
  have hrun := doTufUpdatesApply_failed api factory txid err hfail
  have hiff : isNonFatal err = true
      ↔ ∃ herr, AsHttpError err = some herr ∧ herr.StatusCode ∈ nonFatalCodes := by
    cases err with
    | plain text => simp [isNonFatal, AsHttpError]
    | http text code => simp [isNonFatal, AsHttpError]
  refine ⟨?_, ?_, by decide, by decide⟩
  · rw [← hiff, hrun]
    by_cases hclean : nothingToApply api factory err = true
    · have hnf := nothingToApply_not_isNonFatal api factory err hclean
      simp only [hclean, if_true, hnf]
      constructor
      · intro h
        exact absurd (Except.error.inj h) (errNoUpdates_ne_Errorf err _)
      · intro h
        cases h
    · by_cases hnf : isNonFatal err = true
      · simp [hclean, hnf]
      · simp only [hclean, hnf, if_false]
        constructor
        · intro h
          have h2 := Except.error.inj h
          simp only [Exit.die.injEq, and_true] at h2
          exact absurd h2 (Errorf_advice_ne err)
        · intro h
          cases h
  · intro hnot hclean
    have hnf : ¬ isNonFatal err = true := fun h => hnot (hiff.mp h)
    rw [hrun]
    simp [hclean, hnf]

/-- C6 at a 423 answer and at a 500 answer: the first ends with the recoverable message,
the second with the critical one. -/
theorem doTufUpdatesApply_classification_witness :
    (doTufUpdatesApply (applyApi (.error (.http "locked" 423)) (.ok { Status := "started" }))
        "factory" "tx"
        = .error (.die (Errorf applyFailed (.http "locked" 423) ("\n" ++ adviceNonFatal)) []))
    ∧ (doTufUpdatesApply (applyApi (.error (.http "oops" 500)) (.ok { Status := "started" }))
        "factory" "tx"
        = .error (.die (Errorf applyFailed (.http "oops" 500) ("\n" ++ adviceCritical)) [])) :=
  ⟨(doTufUpdatesApply_classification
      (applyApi (.error (.http "locked" 423)) (.ok { Status := "started" })) "factory" "tx"
      (.http "locked" 423) rfl).1.mpr ⟨⟨"locked", 423⟩, rfl, by decide⟩,
   (doTufUpdatesApply_classification
      (applyApi (.error (.http "oops" 500)) (.ok { Status := "started" })) "factory" "tx"
      (.http "oops" 500) rfl).2.1
      (by
        rintro ⟨herr, h, hin⟩
        cases h
        revert hin
        decide)
      rfl⟩

/-- C6 as stated fails at the status 404, which is not among 400, 401, 403, 422 and 423:
when the server, queried again, reports the status "none", the message is neither the
critical one nor the recoverable one. -/
theorem doTufUpdatesApply_404_none_not_critical :
    (404 : Int) ∉ nonFatalCodes
    ∧ doTufUpdatesApply (applyApi (.error (.http "not found" 404)) (.ok { Status := "none" }))
        "factory" "tx"
        ≠ .error (.die (Errorf applyFailed (.http "not found" 404) ("\n" ++ adviceCritical)) [])
    ∧ doTufUpdatesApply (applyApi (.error (.http "not found" 404)) (.ok { Status := "none" }))
        "factory" "tx"
        = .error (.die (.plain "There are no TUF root updates in progress.") []) :=
  ⟨by decide,
   fun h => absurd (Except.error.inj h) (by decide),
   rfl⟩

/-! ## C7: apply answered by 404 -/

/-- C7, as the code has it.  When the apply call fails with HTTP 404: if the server, queried
again, reports the status "none", the command ends with the error 'There are no TUF root
updates in progress.', without the critical advice (it does not end in success); if the
query fails or reports another status, the command ends with the critical 'may be only
partially applied' message. -/
theorem doTufUpdatesApply_not_found (api : Api) (factory txid text : String)
    (hfail : api.TufRootUpdatesApply factory txid = .error (.http text 404)) :
    (∀ updates, api.TufRootUpdatesGet factory = .ok updates →
        updates.Status = TufRootUpdatesStatusNone →
        doTufUpdatesApply api factory txid = .error (.die errNoUpdates []))
    ∧ (∀ e, api.TufRootUpdatesGet factory = .error e →
        doTufUpdatesApply api factory txid
          = .error (.die (Errorf applyFailed (.http text 404) ("\n" ++ adviceCritical)) []))
    ∧ (∀ updates, api.TufRootUpdatesGet factory = .ok updates →
        updates.Status ≠ TufRootUpdatesStatusNone →
        doTufUpdatesApply api factory txid
          = .error (.die (Errorf applyFailed (.http text 404) ("\n" ++ adviceCritical)) [])) := by
  have hrun := doTufUpdatesApply_failed api factory txid _ hfail
  have hnf : isNonFatal (.http text 404) = false := by
    simp [isNonFatal, AsHttpError, nonFatalCodes]
  refine ⟨?_, ?_, ?_⟩
  · intro updates hget hnone
    rw [hrun]
    simp [nothingToApply, AsHttpError, hget, hnone]
  · intro e hget
    rw [hrun]
    simp [nothingToApply, AsHttpError, hget, hnf]
  · intro updates hget hnone
    rw [hrun]
    simp [nothingToApply, AsHttpError, hget, hnone, hnf]

/-- C7 at a server that reports "none", at one that reports "started" and at one whose
status query fails. -/
theorem doTufUpdatesApply_not_found_witness :
    doTufUpdatesApply (applyApi (.error (.http "not found" 404)) (.ok { Status := "none" }))
        "factory" "tx" = .error (.die errNoUpdates [])
    ∧ doTufUpdatesApply (applyApi (.error (.http "not found" 404)) (.ok { Status := "started" }))
        "factory" "tx"
        = .error (.die (Errorf applyFailed (.http "not found" 404) ("\n" ++ adviceCritical)) [])
    ∧ doTufUpdatesApply (applyApi (.error (.http "not found" 404)) (.error (.plain "timeout")))
        "factory" "tx"
        = .error (.die (Errorf applyFailed (.http "not found" 404) ("\n" ++ adviceCritical)) []) :=
  ⟨(doTufUpdatesApply_not_found
      (applyApi (.error (.http "not found" 404)) (.ok { Status := "none" })) "factory" "tx"
      "not found" rfl).1 { Status := "none" } rfl rfl,
   (doTufUpdatesApply_not_found
      (applyApi (.error (.http "not found" 404)) (.ok { Status := "started" })) "factory" "tx"
      "not found" rfl).2.2 { Status := "started" } rfl (by decide),
   (doTufUpdatesApply_not_found
      (applyApi (.error (.http "not found" 404)) (.error (.plain "timeout"))) "factory" "tx"
      "not found" rfl).2.1 (.plain "timeout") rfl⟩

/-- C7 as stated fails: on a 404 with the re-queried status "none" the command does not
yield success; it ends through `DieNotNil` with an error, and prints no success text. -/
theorem doTufUpdatesApply_404_none_is_an_error :
    (doTufUpdatesApply (applyApi (.error (.http "not found" 404)) (.ok { Status := "none" }))
        "factory" "tx").isOk = false
    ∧ ∃ err message, doTufUpdatesApply
        (applyApi (.error (.http "not found" 404)) (.ok { Status := "none" })) "factory" "tx"
        = .error (.die err message) :=
  ⟨rfl, _, _, rfl⟩

/-! ## C8: the candidates for signing -/

theorem foldl_append_unless {α : Type} (p : α → Prop) [DecidablePred p] (l acc : List α) :
    l.foldl (fun out a => if p a then out else out ++ [a]) acc
      = acc ++ l.filter (fun a => !decide (p a)) := by
  induction l generalizing acc with
  | nil => simp
  | cons a tl ih =>
    by_cases h : p a
    · simp [List.foldl_cons, h, ih, List.filter_cons]
    · simp [List.foldl_cons, h, ih, List.filter_cons]

/-- C8, on the code.  Take a root with a targets role, and any online key.  (a) If the role
lists at least one key ID, the list `signerKids` computed by `signTargets` is exactly the
key IDs of the targets role, in their order, without every key ID whose public value in
the key map of the root equals the public value of the online key; and when that list is
not empty it is the list of candidates handed to the signer lookup.  (b) If the role lists
no key ID, no list is computed: the slice is made with capacity -1 and the command
panics. -/
theorem signerKids_eq_filter (api : Api) (keys : Keys) (meta : AtsTargetsMeta)
    (factory : String) (creds : OfflineCreds) (root : AtsTufRoot) (onlinePub : AtsKey)
    (role : RootRole)
    (hroot : api.TufRootGet factory = .ok root)
    (honline : api.TufTargetsOnlineKey factory = .ok onlinePub)
    (hrole : root.Signed.Roles.get "targets" = some role) :
    (role.KeyIDs ≠ [] →
      signerKids root onlinePub
        = .ok (role.KeyIDs.filter
            (fun kid => !decide (publicOf root kid = onlinePub.KeyValue.Public)))
      ∧ (role.KeyIDs.filter
            (fun kid => !decide (publicOf root kid = onlinePub.KeyValue.Public)) ≠ [] →
          signTargets api keys meta factory creds
            = (DieNotNil (keys.FindOneTufSigner root creds (role.KeyIDs.filter
                  (fun kid => !decide (publicOf root kid = onlinePub.KeyValue.Public))))
                [keys.ErrMsgReadingTufKey "targets" "current"]).bind
              (fun signer => DieNotNil (keys.SignTufMeta meta signer)
                ["Failed to sign new targets"])))
    ∧ (role.KeyIDs = [] →
      signerKids root onlinePub = .error (.panic "makeslice: cap out of range")
      ∧ signTargets api keys meta factory creds
          = .error (.panic "makeslice: cap out of range")) := by
  constructor
  · intro hne
    have hlen : ¬ ((role.KeyIDs.length : Int) - 1 < 0) := by
      have : 0 < role.KeyIDs.length := List.length_pos.mpr hne
      omega
    have hkids : signerKids root onlinePub
        = .ok (role.KeyIDs.filter
            (fun kid => !decide (publicOf root kid = onlinePub.KeyValue.Public))) := by
      simp only [signerKids, hrole, hlen, if_false]
      rw [foldl_append_unless]
      simp
    refine ⟨hkids, fun hsome => ?_⟩
    have hl : (role.KeyIDs.filter
        (fun kid => !decide (publicOf root kid = onlinePub.KeyValue.Public))).length ≠ 0 := by
      intro e
      exact hsome (List.length_eq_zero.mp e)
    simp only [signTargets, hroot, honline, DieNotNil, hkids, bind, Except.bind, hl, if_false,
      pure, Except.pure]
    cases h1 : keys.FindOneTufSigner root creds (role.KeyIDs.filter
        (fun kid => !decide (publicOf root kid = onlinePub.KeyValue.Public))) with
    | error e => rfl
    | ok signer =>
      cases h2 : keys.SignTufMeta meta signer with
      | error e => simp [h2]
      | ok sigs => simp [h2]
  · intro hnil
    have hkids : signerKids root onlinePub = .error (.panic "makeslice: cap out of range") := by
      simp [signerKids, hrole, hnil]
    exact ⟨hkids, by simp [signTargets, hroot, honline, DieNotNil, hkids, bind, Except.bind]⟩

/-- C8 at the key IDs A, B, C with the online key equal to the key of B: the candidates are
A and C; at A, B, B2, C where B and B2 both carry the online key: A and C again; and at a
targets role without key IDs: no list, a panic. -/
theorem signerKids_eq_filter_witness :
    signerKids (mkRoot [("A", "pa"), ("B", "pb"), ("C", "pc")])
        { KeyType := "ED25519", KeyValue := { Public := "pb" } } = .ok ["A", "C"]
    ∧ signerKids (mkRoot [("A", "pa"), ("B", "pb"), ("B2", "pb"), ("C", "pc")])
        { KeyType := "ED25519", KeyValue := { Public := "pb" } } = .ok ["A", "C"]
    ∧ signerKids (mkRoot []) { KeyType := "ED25519", KeyValue := { Public := "pb" } }
        = .error (.panic "makeslice: cap out of range")
    ∧ signerKids (mkRoot []) { KeyType := "ED25519", KeyValue := { Public := "pb" } }
        ≠ .ok [] :=
  ⟨((signerKids_eq_filter (rootApi (mkRoot [("A", "pa"), ("B", "pb"), ("C", "pc")]) "pb")
      (mkKeys ["A"]) prodV10.Signed "factory" []
      (mkRoot [("A", "pa"), ("B", "pb"), ("C", "pc")])
      { KeyType := "ED25519", KeyValue := { Public := "pb" } }
      { KeyIDs := ["A", "B", "C"], Threshold := 1 } rfl rfl rfl).1 (by decide)).1,
   ((signerKids_eq_filter
      (rootApi (mkRoot [("A", "pa"), ("B", "pb"), ("B2", "pb"), ("C", "pc")]) "pb")
      (mkKeys ["A"]) prodV10.Signed "factory" []
      (mkRoot [("A", "pa"), ("B", "pb"), ("B2", "pb"), ("C", "pc")])
      { KeyType := "ED25519", KeyValue := { Public := "pb" } }
      { KeyIDs := ["A", "B", "B2", "C"], Threshold := 1 } rfl rfl rfl).1 (by decide)).1,
   ((signerKids_eq_filter (rootApi (mkRoot []) "pb") (mkKeys ["A"]) prodV10.Signed "factory" []
      (mkRoot []) { KeyType := "ED25519", KeyValue := { Public := "pb" } }
      { KeyIDs := [], Threshold := 1 } rfl rfl rfl).2 rfl).1,
   fun h => by cases h⟩

/-! ## C9: no key to sign with -/

/-- C9, on the code.  Take a root whose targets role lists only key IDs that carry the
online public key.  If the role lists at least one key ID, `signTargets` ends with the
error 'Root role is not configured to sign Targets offline...' whatever the `keys` package
would answer: no signer is looked up and nothing is signed.  If the role lists no key ID
at all, the command does not reach that error: the slice of candidates is made with
capacity -1 and the command panics. -/
theorem signTargets_without_offline_key (api : Api) (keys : Keys) (meta : AtsTargetsMeta)
    (factory : String) (creds : OfflineCreds) (root : AtsTufRoot) (onlinePub : AtsKey)
    (role : RootRole)
    (hroot : api.TufRootGet factory = .ok root)
    (honline : api.TufTargetsOnlineKey factory = .ok onlinePub)
    (hrole : root.Signed.Roles.get "targets" = some role)
    (hall : ∀ kid, kid ∈ role.KeyIDs → publicOf root kid = onlinePub.KeyValue.Public) :
    (role.KeyIDs ≠ [] →
      signTargets api keys meta factory creds = .error (.die errNotConfigured []))
    ∧ (role.KeyIDs = [] →
      signTargets api keys meta factory creds = .error (.panic "makeslice: cap out of range")) := by
  constructor
  · intro hne
    have hlen : ¬ ((role.KeyIDs.length : Int) - 1 < 0) := by
      have : 0 < role.KeyIDs.length := List.length_pos.mpr hne
      omega
    have hnil : role.KeyIDs.filter
        (fun kid => !decide (publicOf root kid = onlinePub.KeyValue.Public)) = [] := by
      rw [List.filter_eq_nil_iff]
      intro kid hkid
      simp [hall kid hkid]
    have hkids : signerKids root onlinePub = .ok [] := by
      simp only [signerKids, hrole, hlen, if_false]
      rw [foldl_append_unless, hnil]
      rfl
    simp [signTargets, hroot, honline, DieNotNil, hkids, bind, Except.bind, throw, throwThe,
      MonadExceptOf.throw]
  · intro hnil
    have hkids : signerKids root onlinePub = .error (.panic "makeslice: cap out of range") := by
      simp [signerKids, hrole, hnil]
    simp [signTargets, hroot, honline, DieNotNil, hkids, bind, Except.bind]

/-- C9 at a role whose only key carries the online public key, which ends with the
configuration error, and at a role without key IDs, which panics instead. -/
theorem signTargets_without_offline_key_witness :
    signTargets (rootApi (mkRoot [("B", "pb")]) "pb") (mkKeys ["A"]) prodV10.Signed "factory"
        [("A", "private")] = .error (.die errNotConfigured [])
    ∧ signTargets (rootApi (mkRoot []) "pb") (mkKeys ["A"]) prodV10.Signed "factory"
        [("A", "private")] = .error (.panic "makeslice: cap out of range")
    ∧ signTargets (rootApi (mkRoot []) "pb") (mkKeys ["A"]) prodV10.Signed "factory"
        [("A", "private")] ≠ .error (.die errNotConfigured []) :=
  ⟨(signTargets_without_offline_key (rootApi (mkRoot [("B", "pb")]) "pb") (mkKeys ["A"])
      prodV10.Signed "factory" [("A", "private")] (mkRoot [("B", "pb")])
      { KeyType := "ED25519", KeyValue := { Public := "pb" } }
      { KeyIDs := ["B"], Threshold := 1 } rfl rfl rfl (by decide)).1 (by decide),
   (signTargets_without_offline_key (rootApi (mkRoot []) "pb") (mkKeys ["A"])
      prodV10.Signed "factory" [("A", "private")] (mkRoot [])
      { KeyType := "ED25519", KeyValue := { Public := "pb" } }
      { KeyIDs := [], Threshold := 1 } rfl rfl rfl (by decide)).2 rfl,
   fun h => absurd (Except.error.inj h) (by decide)⟩

/-! ## Lemmas on the prune -/

theorem GoMap.delete_eq_filter {β : Type} (m : GoMap β) (k : String) :
    m.delete k = m.filter (fun kv => !decide (kv.1 = k)) := by
  induction m with
  | nil => rfl
  | cons hd tl ih =>
    obtain ⟨k0, w⟩ := hd
    by_cases h : k0 = k
    · simp [GoMap.delete, h, ih]
    · simp [GoMap.delete, h, ih]

/-- One pass of the prune over entries that decode: the Targets named like a visited entry
of the version are gone, and `found` tells whether there was one. -/
theorem pruneVersion_eq (api : Api) (version : String) (entries : List (String × FileMeta))
    (targets : Files) (found : Bool)
    (hdec : ∀ nf, nf ∈ entries → ∃ custom, api.TargetCustom nf.2 = .ok custom) :
    pruneVersion api version entries targets found
      = .ok (targets.filter (fun nf =>
            !entries.any (fun e => decide (e.1 = nf.1) && versionIs api version e.2)),
          found || entries.any (fun e => versionIs api version e.2)) := by
  induction entries generalizing targets found with
  | nil => simp [pruneVersion]
  | cons hd tl ih =>
    obtain ⟨name, file⟩ := hd
    obtain ⟨custom, hc⟩ := hdec (name, file) (by simp)
    have hdec2 : ∀ nf, nf ∈ tl → ∃ custom, api.TargetCustom nf.2 = .ok custom :=
      fun nf hnf => hdec nf (List.mem_cons_of_mem _ hnf)
    by_cases hv : custom.Version = version
    · have hvi : versionIs api version file = true := by simp [versionIs, hc, hv]
      simp only [pruneVersion, hc, DieNotNil, hv, if_true]
      rw [ih _ _ hdec2, GoMap.delete_eq_filter, List.filter_filter]
      simp only [List.any_cons, hvi, Bool.and_true, Bool.true_or, Bool.or_true, Prod.mk.injEq,
        true_and]
      congr 2
      apply List.filter_congr
      intro nf _
      by_cases hn : name = nf.1
      · simp [hn]
      · have hn2 : ¬ nf.1 = name := fun e => hn e.symm
        simp [hn, hn2]
    · have hvi : versionIs api version file = false := by simp [versionIs, hc, hv]
      simp only [pruneVersion, hc, DieNotNil, hv, if_false]
      rw [ih _ _ hdec2]
      simp [List.any_cons, hvi]

theorem versionIs_unique (api : Api) (a b : String) (file : FileMeta)
    (ha : versionIs api a file = true) (hb : versionIs api b file = true) : a = b := by
  unfold versionIs at ha hb
  cases h : api.TargetCustom file with
  | error e => simp [h] at ha
  | ok custom =>
    simp only [h, decide_eq_true_eq] at ha hb
    rw [← ha, ← hb]

theorem GoMap.nodup_keys_filter {β : Type} (m : GoMap β) (p : String × β → Bool)
    (h : m.keys.Nodup) : (GoMap.keys (m.filter p)).Nodup :=
  List.Nodup.sublist (List.Sublist.map Prod.fst (List.filter_sublist m)) h

/-- One pass of the prune over the whole map. -/
theorem pruneVersion_self (api : Api) (version : String) (targets : Files)
    (hnodup : targets.keys.Nodup)
    (hdec : ∀ nf, nf ∈ targets → ∃ custom, api.TargetCustom nf.2 = .ok custom) :
    pruneVersion api version targets targets false
      = .ok (targets.filter (fun nf => !versionIs api version nf.2),
          matchesSome api targets version) := by
  rw [pruneVersion_eq api version targets targets false hdec]
  simp only [Bool.false_or, matchesSome]
  congr 2
  apply List.filter_congr
  intro nf hnf
  congr 1
  rw [Bool.eq_iff_iff]
  simp only [List.any_eq_true, Bool.and_eq_true, decide_eq_true_eq]
  constructor
  · rintro ⟨e, he, hk, hv⟩
    have h1 := (GoMap.get_eq_some_iff targets hnodup e.1 e.2).mpr he
    have h2 := (GoMap.get_eq_some_iff targets hnodup nf.1 nf.2).mpr hnf
    rw [hk, h2] at h1
    rw [Option.some.inj h1]
    exact hv
  · intro hv
    exact ⟨nf, hnf, rfl, hv⟩

theorem matchesSome_unpruned (api : Api) (targets : Files) (seen : List String)
    (label : String) :
    matchesSome api (unpruned api targets seen) label
      = (matchesSome api targets label && !seen.contains label) := by
  rw [Bool.eq_iff_iff]
  simp only [matchesSome, unpruned, List.any_eq_true, List.mem_filter, Bool.and_eq_true,
    Bool.not_eq_true', List.any_eq_false, List.contains_eq_any_beq, beq_iff_eq,
    Bool.not_eq_true]
  constructor
  · rintro ⟨nf, ⟨hnf, hseen⟩, hv⟩
    refine ⟨⟨nf, hnf, hv⟩, fun s hs e => ?_⟩
    subst e
    rw [hseen label hs] at hv
    cases hv
  · rintro ⟨⟨nf, hnf, hv⟩, hnot⟩
    refine ⟨nf, ⟨hnf, fun s hs => ?_⟩, hv⟩
    cases hs2 : versionIs api s nf.2 with
    | false => rfl
    | true => exact absurd (versionIs_unique api s label nf.2 hs2 hv) (fun e => hnot s hs e.symm)

/-- The loop of the prune over labels, after the labels `seen`. -/
theorem pruneLoop_eq (api : Api) (targets : Files) (hnodup : targets.keys.Nodup)
    (hdec : ∀ nf, nf ∈ targets → ∃ custom, api.TargetCustom nf.2 = .ok custom)
    (labels seen missing : List String) :
    pruneLoop api labels (unpruned api targets seen) missing
      = .ok (unpruned api targets (labels.reverse ++ seen),
          missing ++ unmatched api targets seen labels) := by
  induction labels generalizing seen missing with
  | nil => simp [pruneLoop, unmatched]
  | cons label rest ih =>
    have hnodup2 : (GoMap.keys (unpruned api targets seen)).Nodup :=
      GoMap.nodup_keys_filter targets _ hnodup
    have hdec2 : ∀ nf, nf ∈ unpruned api targets seen →
        ∃ custom, api.TargetCustom nf.2 = .ok custom :=
      fun nf hnf => hdec nf (List.mem_filter.mp hnf).1
    have hnext : (unpruned api targets seen).filter (fun nf => !versionIs api label nf.2)
        = unpruned api targets (label :: seen) := by
      simp only [unpruned, List.filter_filter, List.any_cons, Bool.not_or]
    simp only [pruneLoop, pruneVersion_self api label _ hnodup2 hdec2, hnext,
      matchesSome_unpruned]
    rw [ih (label :: seen)]
    have hseen : (label :: rest).reverse ++ seen = rest.reverse ++ label :: seen := by simp
    rw [hseen]
    congr 2
    cases hm : matchesSome api targets label <;> by_cases hc : label ∈ seen <;>
      simp [unmatched, hm, hc]

/-- The function `pruneTargets` on a map whose custom documents decode. -/
theorem pruneTargets_eq (api : Api) (t : AtsTargetsMeta) (labels : List String)
    (hnodup : t.Targets.keys.Nodup)
    (hdec : ∀ nf, nf ∈ t.Targets → ∃ custom, api.TargetCustom nf.2 = .ok custom) :
    pruneTargets api t labels =
      if unmatched api t.Targets [] labels = [] then
        .ok { t with Targets := unpruned api t.Targets labels.reverse }
      else
        .error (.die (.plain "") ["Unable to prune the following versions: "
          ++ ",".intercalate (unmatched api t.Targets [] labels)]) := by
  have hstart : unpruned api t.Targets [] = t.Targets := by simp [unpruned]
  have hloop := pruneLoop_eq api t.Targets hnodup hdec labels [] []
  rw [hstart] at hloop
  simp only [pruneTargets, hloop, List.nil_append, List.append_nil]
  by_cases hu : unmatched api t.Targets [] labels = []
  · simp [hu]
  · have hlen : (unmatched api t.Targets [] labels).length > 0 := List.length_pos.mpr hu
    simp [hu, hlen]

theorem unmatched_of_nodup (api : Api) (targets : Files) (labels seen : List String)
    (hnew : ∀ l, l ∈ labels → l ∉ seen) (hnodup : labels.Nodup) :
    unmatched api targets seen labels
      = labels.filter (fun l => !matchesSome api targets l) := by
  induction labels generalizing seen with
  | nil => rfl
  | cons label rest ih =>
    have hl : label ∉ seen := hnew label (by simp)
    rw [List.nodup_cons] at hnodup
    have hrest : ∀ l, l ∈ rest → l ∉ label :: seen := by
      intro l hl2 hmem
      rcases List.mem_cons.mp hmem with e | e
      · subst e
        exact hnodup.1 hl2
      · exact hnew l (List.mem_cons_of_mem _ hl2) e
    cases hm : matchesSome api targets label <;>
      simp [unmatched, List.filter_cons, hm, hl, ih (label :: seen) hrest hnodup.2]

/-! ## C10: the labels a prune cannot find -/

/-- C10, as the code has it.  For a merged set of Targets (a map, with custom documents
that decode) and any requested labels, `pruneTargets` reports an error exactly when some
requested label matches the custom version of no Target of the set or repeats a label
requested before; it is then the one error 'Unable to prune the following versions: ...'
listing exactly those labels, in requested order, joined by commas.  For labels requested
once each, they are exactly the labels that match no Target of the set. -/
theorem pruneTargets_reports_unmatched (api : Api) (t : AtsTargetsMeta) (labels : List String)
    (hnodup : t.Targets.keys.Nodup)
    (hdec : ∀ nf, nf ∈ t.Targets → ∃ custom, api.TargetCustom nf.2 = .ok custom) :
    ((∃ e, pruneTargets api t labels = .error e) ↔ unmatched api t.Targets [] labels ≠ [])
    ∧ (unmatched api t.Targets [] labels ≠ [] →
        pruneTargets api t labels
          = .error (.die (.plain "") ["Unable to prune the following versions: "
              ++ ",".intercalate (unmatched api t.Targets [] labels)]))
    ∧ (labels.Nodup →
        unmatched api t.Targets [] labels
          = labels.filter (fun l => !matchesSome api t.Targets l)) := by
  have heq := pruneTargets_eq api t labels hnodup hdec
  refine ⟨?_, ?_, ?_⟩
  · rw [heq]
    by_cases hu : unmatched api t.Targets [] labels = []
    · simp [hu]
    · simp [hu]
  · intro hu
    rw [heq, if_neg hu]
  · intro hl
    exact unmatched_of_nodup api t.Targets labels [] (fun _ _ h => by cases h) hl

/-- C10 at the labels "1", "2", "3" over a set whose only custom version is "2": one error
that lists "1,3". -/
theorem pruneTargets_reports_unmatched_witness :
    pruneTargets exampleApi docV2 ["1", "2", "3"]
        = .error (.die (.plain "") ["Unable to prune the following versions: " ++ "1,3"])
    ∧ unmatched exampleApi docV2.Targets [] ["1", "2", "3"]
        = ["1", "2", "3"].filter (fun l => !matchesSome exampleApi docV2.Targets l) :=
  ⟨(pruneTargets_reports_unmatched exampleApi docV2 ["1", "2", "3"] (by decide)
      (by
        intro nf hnf
        simp only [docV2, List.mem_singleton] at hnf
        subst hnf
        exact ⟨_, rfl⟩)).2.1 (by decide),
   (pruneTargets_reports_unmatched exampleApi docV2 ["1", "2", "3"] (by decide)
      (by
        intro nf hnf
        simp only [docV2, List.mem_singleton] at hnf
        subst hnf
        exact ⟨_, rfl⟩)).2.2 (by decide)⟩

/-- C10 as stated fails: with the label "2" requested twice over a set that has a Target of
custom version "2", every requested label matches a Target of the set, yet the prune
reports the error 'Unable to prune the following versions: 2'. -/
theorem pruneTargets_repeated_label_reported :
    (∀ l, l ∈ ["2", "2"] → matchesSome exampleApi docV2.Targets l = true)
    ∧ pruneTargets exampleApi docV2 ["2", "2"]
        = .error (.die (.plain "") ["Unable to prune the following versions: 2"]) :=
  ⟨by decide, rfl⟩

/-! ## C11: what a prune deletes -/

/-- The Targets a prune leaves, whatever the order in which the labels were seen. -/
theorem unpruned_reverse (api : Api) (targets : Files) (labels : List String) :
    unpruned api targets labels.reverse
      = targets.filter (fun nf => !labels.any (fun l => versionIs api l nf.2)) := by
  unfold unpruned
  apply List.filter_congr
  intro nf _
  congr 1
  rw [Bool.eq_iff_iff]
  simp only [List.any_eq_true, List.mem_reverse]

/-- C11, as the code has it.  For a set of Targets (a map, with custom documents that
decode) and a list of prune labels, none repeated, each of which matches the custom
version of some Target, `pruneTargets` returns a document whose Targets are exactly the
input Targets whose custom version equals no requested label: a Target of a requested
version is gone, every other Target is there unchanged, and type, version and expiration of
the document are unchanged. -/
theorem pruneTargets_deletes_requested (api : Api) (t : AtsTargetsMeta) (labels : List String)
    (hnodup : t.Targets.keys.Nodup)
    (hdec : ∀ nf, nf ∈ t.Targets → ∃ custom, api.TargetCustom nf.2 = .ok custom)
    (hlabels : labels.Nodup)
    (hmatch : ∀ l, l ∈ labels → matchesSome api t.Targets l = true) :
    ∃ out, pruneTargets api t labels = .ok out
      ∧ out.Targets
          = t.Targets.filter (fun nf => !labels.any (fun l => versionIs api l nf.2))
      ∧ (∀ name file, out.Targets.get name = some file ↔
          t.Targets.get name = some file ∧ ∀ l, l ∈ labels → versionIs api l file = false)
      ∧ out.Type_ = t.Type_ ∧ out.Version = t.Version ∧ out.Expires = t.Expires := by
  have hu : unmatched api t.Targets [] labels = [] := by
    rw [unmatched_of_nodup api t.Targets labels [] (fun _ _ h => by cases h) hlabels,
      List.filter_eq_nil_iff]
    intro l hl
    simp [hmatch l hl]
  refine ⟨{ t with Targets := unpruned api t.Targets labels.reverse }, ?_, ?_, ?_, rfl, rfl,
    rfl⟩
  · rw [pruneTargets_eq api t labels hnodup hdec, if_pos hu]
  · exact unpruned_reverse api t.Targets labels
  · intro name file
    show GoMap.get (unpruned api t.Targets labels.reverse) name = some file ↔ _
    rw [unpruned_reverse, GoMap.get_eq_some_iff _ (GoMap.nodup_keys_filter _ _ hnodup),
      GoMap.get_eq_some_iff _ hnodup, List.mem_filter]
    simp only [Bool.not_eq_true', List.any_eq_false, Bool.not_eq_true]

/-- C11 at a document with a Target of custom version "1" and one of custom version "2",
pruned of the label "1": the document returned keeps `app-v2` as it was, has lost `app-v1`,
and has the type, version and expiration it had. -/
theorem pruneTargets_deletes_requested_witness :
    ∃ out, pruneTargets exampleApi docV12 ["1"] = .ok out
      ∧ GoMap.keys out.Targets = ["app-v2"]
      ∧ out.Targets.get "app-v2" = docV12.Targets.get "app-v2"
      ∧ out.Targets.get "app-v1" = none
      ∧ out.Type_ = "Targets" ∧ out.Version = 16 ∧ out.Expires = 7 :=
  match pruneTargets_deletes_requested exampleApi docV12 ["1"] (by decide)
    (by
      intro nf hnf
      simp only [docV12, List.mem_cons, List.mem_singleton, List.not_mem_nil, or_false] at hnf
      rcases hnf with e | e <;> subst e <;> exact ⟨_, rfl⟩)
    (by decide) (by decide) with
  | ⟨out, hrun, htargets, _, htype, hversion, hexpires⟩ =>
    ⟨out, hrun, by rw [htargets]; rfl, by rw [htargets]; rfl, by rw [htargets]; rfl,
      htype, hversion, hexpires⟩

/-- C11 as stated fails: over Targets of custom versions "1" and "2", each of the requested
labels "1", "2", "1" matches a Target, yet `pruneTargets` returns no document; it ends
with 'Unable to prune the following versions: 1'. -/
theorem pruneTargets_all_match_no_document :
    (∀ l, l ∈ ["1", "2", "1"] → matchesSome exampleApi docV12.Targets l = true)
    ∧ pruneTargets exampleApi docV12 ["1", "2", "1"]
        = .error (.die (.plain "") ["Unable to prune the following versions: 1"])
    ∧ (pruneTargets exampleApi docV12 ["1", "2", "1"]).isOk = false :=
  ⟨by decide, rfl, rfl⟩

/-! ## C12: pruning the version that is promoted -/

/-- C12, on the code.  Let `doInitWave` pass the merge: the version argument reads as `V`,
expiration and keys are read, the CI Targets and the production document are fetched, the
new document `t0` is started and the merge leaves the Targets `merged`.  (a) If the prune
list holds the version argument itself, character by character, the command ends with
'Cannot prune current version' and nothing is pruned.  (b) If the prune list is not empty
and does not hold the version argument as it was typed, the guard does not fire, also when
a label of the list reads as the same integer `V`: the command goes on with `pruneTargets`
over the merged document, Targets added by this Wave included. -/
theorem doInitWave_prune_current_version (api : Api) (keys : Keys) (clock : Clock)
    (factory : String) (flags : Flags) (name version tag : String) (V expires : Int)
    (creds : OfflineCreds) (ci : Files) (cur : Option AtsTufTargets) (t0 : AtsTargetsMeta)
    (merged : Files)
    (hparse : ParseInt version 32 = .ok V)
    (hexp : readExpiration clock flags = .ok expires)
    (hkeys : keys.GetOfflineCreds flags.keys = .ok creds)
    (hci : api.TargetsList factory version = .ok ci) (hne : ci ≠ [])
    (hprod : api.ProdTargetsGet factory tag false = .ok cur)
    (ht0 : newTargets expires V cur = .ok t0)
    (hmerge : mergeLoop api tag flags.sourceTag ci t0.Targets = (merged, none)) :
    (version ∈ flags.prune →
      doInitWave api keys clock factory flags name version tag
        = .error (.die (.plain "Cannot prune current version") []))
    ∧ (flags.prune ≠ [] → version ∉ flags.prune →
      doInitWave api keys clock factory flags name version tag
        = (pruneTargets api { t0 with Targets := merged } flags.prune).bind
            (fun targets =>
              createWave api keys factory creds flags.dryRun name version tag targets)) := by
  have hlen : ci.length ≠ 0 := by simpa using hne
  constructor
  · intro hin
    have hpos : flags.prune.length > 0 := List.length_pos_of_mem hin
    simp [doInitWave, hparse, hexp, readOfflineKeys, hkeys, hci, hprod, DieNotNil, hlen, ht0,
      hmerge, pruneStep, hpos, hin, bind, Except.bind]
  · intro hsome hnot
    have hpos : flags.prune.length > 0 := List.length_pos.mpr hsome
    simp [doInitWave, hparse, hexp, readOfflineKeys, hkeys, hci, hprod, DieNotNil, hlen, ht0,
      hmerge, pruneStep, hpos, hnot, bind, Except.bind]

/-- C12 at the example scenario with `--prune 16`.  The version argument "16" is refused
with 'Cannot prune current version'.  The version argument "016", which reads as the same
integer 16, is not: the command goes on with `pruneTargets`, and the Wave it yields holds
`app-v10` only, the Target `app-v16` added by this Wave having been pruned. -/
theorem doInitWave_prune_current_version_witness :
    doInitWave exampleApi (mkKeys ["A"]) (mkClock 5) "factory" (mkFlags "creds.tgz" ["16"] "")
        "wave" "16" "production" = .error (.die (.plain "Cannot prune current version") [])
    ∧ ParseInt "016" 32 = .ok 16
    ∧ doInitWave exampleApi (mkKeys ["A"]) (mkClock 5) "factory" (mkFlags "creds.tgz" ["16"] "")
        "wave" "016" "production"
        = (pruneTargets exampleApi
            { Type_ := "Targets", Expires := 31536000000000000, Version := 16,
              Targets := (mergeLoop exampleApi "production" ""
                [("app-v16", mkTarget "16" ["ci"])] prodV10.Signed.Targets).1 }
            ["16"]).bind
            (fun targets => createWave exampleApi (mkKeys ["A"]) "factory" [("A", "private")]
              true "wave" "016" "production" targets)
    ∧ (mergeLoop exampleApi "production" "" [("app-v16", mkTarget "16" ["ci"])]
        prodV10.Signed.Targets).1.keys = ["app-v10", "app-v16"]
    ∧ (doInitWave exampleApi (mkKeys ["A"]) (mkClock 5) "factory"
        (mkFlags "creds.tgz" ["16"] "") "wave" "016" "production").toOption.map
        (fun wave => GoMap.keys wave.Targets.Signed.Targets) = some ["app-v10"] :=
  ⟨(doInitWave_prune_current_version exampleApi (mkKeys ["A"]) (mkClock 5) "factory"
      (mkFlags "creds.tgz" ["16"] "") "wave" "16" "production" 16 31536000000000000
      [("A", "private")] [("app-v16", mkTarget "16" ["ci"])] (some prodV10)
      ⟨"Targets", 31536000000000000, 16, prodV10.Signed.Targets⟩
      (mergeLoop exampleApi "production" "" [("app-v16", mkTarget "16" ["ci"])]
        prodV10.Signed.Targets).1
      rfl rfl rfl rfl (by simp) rfl rfl rfl).1 (by decide),
   rfl,
   (doInitWave_prune_current_version exampleApi (mkKeys ["A"]) (mkClock 5) "factory"
      (mkFlags "creds.tgz" ["16"] "") "wave" "016" "production" 16 31536000000000000
      [("A", "private")] [("app-v16", mkTarget "16" ["ci"])] (some prodV10)
      ⟨"Targets", 31536000000000000, 16, prodV10.Signed.Targets⟩
      (mergeLoop exampleApi "production" "" [("app-v16", mkTarget "16" ["ci"])]
        prodV10.Signed.Targets).1
      rfl rfl rfl rfl (by simp) rfl rfl rfl).2 (by decide) (by decide),
   rfl, rfl⟩

/-! ## C13: the expiration is a whole second -/

/-- The instant `Round t Second`: a whole second, the nearest to `t`, half a second going
up. -/
theorem Round_Second (t : Int) :
    Round t Second % Second = 0
      ∧ 2 * (Round t Second - t) ≤ Second ∧ 2 * (t - Round t Second) < Second
      ∧ (2 * (t % Second) < Second → Round t Second = t - t % Second)
      ∧ (Second ≤ 2 * (t % Second) → Round t Second = t - t % Second + Second) := by
  simp only [Round, Second]
  split
  · omega
  · split <;> omega

/-- C13, as the code has it.  Let `t` be the expiration instant: the instant read from
`--expires-at`, or `now` plus the days of `--expires-days` (365 by default).  Then
`readExpiration` returns `t` rounded to the nearest whole second, a half second going up:
the instant returned has no sub-second part and is within half a second of `t`; it is `t`
rounded down, hence not later than `t`, exactly when the sub-second part of `t` is less
than half a second, and it is the next whole second, later than `t`, otherwise. -/
theorem readExpiration_rounds_to_nearest (clock : Clock) (flags : Flags) (t : Int)
    (ht : (∃ value, flags.expiresAt = some value ∧ clock.Parse value = .ok t)
      ∨ (flags.expiresAt = none
        ∧ t = clock.Now + wrapInt64 (wrapInt64 (flags.expiresDays.getD 365 * 24) * Hour))) :
    ∃ r, readExpiration clock flags = .ok r
      ∧ r = Round t Second
      ∧ r % Second = 0
      ∧ 2 * (r - t) ≤ Second ∧ 2 * (t - r) < Second
      ∧ (2 * (t % Second) < Second → r = t - t % Second ∧ r ≤ t)
      ∧ (Second ≤ 2 * (t % Second) → r = t - t % Second + Second ∧ t < r) := by
  have hrun : readExpiration clock flags = .ok (Round t Second) := by
    rcases ht with ⟨value, hat, hparse⟩ | ⟨hat, hdays⟩
    · simp [readExpiration, hat, hparse, DieNotNil, bind, Except.bind, pure, Except.pure]
    · subst hdays
      cases hd : flags.expiresDays <;>
        simp [readExpiration, hat, hd, bind, Except.bind, pure, Except.pure]
  obtain ⟨h0, h1, h2, hdown, hup⟩ := Round_Second t
  have hmod : 0 ≤ t % Second ∧ t % Second < Second := by
    simp only [Second]
    omega
  refine ⟨Round t Second, hrun, rfl, h0, h1, h2, ?_, ?_⟩
  · intro h
    have := hdown h
    exact ⟨this, by omega⟩
  · intro h
    have := hup h
    exact ⟨this, by omega⟩

/-- C13 at an `--expires-at` that reads as 1.5 s and at a clock that stands at 0.6 s with
the default 365 days: both instants are returned rounded up to the next second. -/
theorem readExpiration_rounds_to_nearest_witness :
    (∃ r, readExpiration (parsingClock 0 1500000000)
        { expiresDays := none, expiresAt := some "1970-01-01T00:00:01.5Z", dryRun := true,
          prune := [], keys := "creds.tgz", sourceTag := "" } = .ok r
      ∧ r = 2000000000)
    ∧ (∃ r, readExpiration (mkClock 600000000) (mkFlags "creds.tgz" [] "") = .ok r
      ∧ r = 31536001000000000) :=
  ⟨match readExpiration_rounds_to_nearest (parsingClock 0 1500000000)
      { expiresDays := none, expiresAt := some "1970-01-01T00:00:01.5Z", dryRun := true,
        prune := [], keys := "creds.tgz", sourceTag := "" } 1500000000
      (Or.inl ⟨_, rfl, rfl⟩) with
    | ⟨r, hrun, hr, _⟩ => ⟨r, hrun, by rw [hr]; decide⟩,
   match readExpiration_rounds_to_nearest (mkClock 600000000) (mkFlags "creds.tgz" [] "")
      31536000600000000 (Or.inr ⟨rfl, by decide⟩) with
    | ⟨r, hrun, hr, _⟩ => ⟨r, hrun, by rw [hr]; decide⟩⟩

/-- C13 as stated fails: with the clock at 0.6 s and the default 365 days the expiration
instant is 31536000.6 s; `readExpiration` returns 31536001 s, which is later than that
instant, and not 31536000 s, the greatest whole second that is not later. -/
theorem readExpiration_rounds_up :
    (mkClock 600000000).Now + wrapInt64 (wrapInt64 (365 * 24) * Hour) = 31536000600000000
    ∧ readExpiration (mkClock 600000000) (mkFlags "creds.tgz" [] "") = .ok 31536001000000000
    ∧ (31536000600000000 : Int) < 31536001000000000
    ∧ (31536000000000000 : Int) % Second = 0
    ∧ (31536000000000000 : Int) ≤ 31536000600000000
    ∧ readExpiration (mkClock 600000000) (mkFlags "creds.tgz" [] "") ≠ .ok 31536000000000000 :=
  ⟨by decide, rfl, by decide, by decide, by decide,
   fun h => absurd (Except.ok.inj h) (by decide)⟩

end Fioctl
